import Mathlib

/-!
Verification of the miniflux-scripts deduplication engine.

The repository consists of five Python scripts that deduplicate feed
entries.  This file gives a shallow embedding of their core logic:

* `normalise_title` — the shared title normaliser of
  `dedupe_bbc_crossfeeds.py` and `dedupe_bbc_tech.py`
  (lower-case, drop every character outside `\w` and `\s`,
  collapse whitespace runs, strip);
* `normalise_title_sport` — the normaliser of `dedupe_bbc_sport.py`
  (no punctuation stripping);
* `clean_title` and `find_cross_feed_duplicates` — the fuzzy matcher of
  `scripts/dedupe_bbc_sport.py` (stop-word removal, token sorting, and a
  `token_sort_ratio` threshold test);
* `techGroups` / `techDuplicates` — the exact-mode grouping of
  `dedupe_bbc_tech.py`;
* `byTitle` / `crossfeedMarks` — the cross-feed resolution of
  `dedupe_bbc_crossfeeds.py`;
* `within_window` / `seen_titles` / `to_mark_read_recent` — the
  windowed already-seen check of `dedupe_bbc_recent_updates.py`.

Text is modelled as a list of Unicode code points (`Str := List Nat`),
with the character classes of Python's `str.lower`, `\w` and `\s`
restricted to their ASCII behaviour; every concrete input used below is
ASCII, where the model and Python agree exactly.  Timestamps are modelled
as natural numbers (seconds); the scripts compare ISO-8601 UTC timestamp
strings (or parsed datetimes), whose order coincides with the numeric
order of the instants they denote.
-/

/-- Text as a list of code points. -/
abbrev Str := List Nat

/-- Helper turning a Lean string literal into its code points. -/
def txt (x : String) : Str := x.toList.map Char.toNat

/-- Python `\s` (ASCII): space, tab, newline, vertical tab, form feed,
carriage return. -/
def spB (c : Nat) : Bool := decide (c = 32 ∨ c = 9 ∨ c = 10 ∨ c = 11 ∨ c = 12 ∨ c = 13)

/-- Python `\w` (ASCII): letters, digits and the underscore. -/
def isWordChar (c : Nat) : Bool :=
  decide ((48 ≤ c ∧ c ≤ 57) ∨ (65 ≤ c ∧ c ≤ 90) ∨ (97 ≤ c ∧ c ≤ 122) ∨ c = 95)

/-- Characters kept by `re.sub(r"[^\w\s]", "", ...)`. -/
def keepChar (c : Nat) : Bool := isWordChar c || spB c

/-- Python `str.lower` (ASCII). -/
def pyLower (c : Nat) : Nat := if 65 ≤ c ∧ c ≤ 90 then c + 32 else c

/-- Model of `re.sub(r"\s+", " ", s)`: every maximal run of whitespace
characters becomes a single space. -/
def collapseWs : List Nat → List Nat
  | [] => []
  | [c] => if spB c then [32] else [c]
  | c :: d :: rest =>
    if spB c then
      (if spB d then collapseWs (d :: rest) else 32 :: collapseWs (d :: rest))
    else c :: collapseWs (d :: rest)

/-- Drop a trailing run of whitespace (the right half of `str.strip`). -/
def trimRight : List Nat → List Nat
  | [] => []
  | c :: rest =>
    let r := trimRight rest
    if r.isEmpty then (if spB c then [] else [c]) else c :: r

/-- Model of `str.strip()`. -/
def trimWs (l : List Nat) : List Nat := trimRight (l.dropWhile spB)

/-- Model of `str.split()`: split on whitespace runs, no empty tokens.
The first argument accumulates the current token in reverse. -/
def splitWsGo : List Nat → List Nat → List (List Nat)
  | cur, [] => if cur.isEmpty then [] else [cur.reverse]
  | cur, c :: rest =>
    if spB c then
      (if cur.isEmpty then splitWsGo [] rest else cur.reverse :: splitWsGo [] rest)
    else splitWsGo (c :: cur) rest

/-- Model of `str.split()`. -/
def splitWs (l : List Nat) : List (List Nat) := splitWsGo [] l

/-- Model of `" ".join(words)`. -/
def joinSpace : List Str → Str
  | [] => []
  | [w] => w
  | w :: rest => w ++ 32 :: joinSpace rest

/-- Lexicographic order on code-point strings, as Python compares `str`. -/
def lexLe : Str → Str → Bool
  | [], _ => true
  | _ :: _, [] => false
  | a :: as, b :: bs => if a < b then true else if b < a then false else lexLe as bs

/-- The `normalise_title` of `dedupe_bbc_crossfeeds.py` (lines 46-50)
and `dedupe_bbc_tech.py` (lines 41-45), which are textually identical:
lower-case, delete characters outside `\w` and `\s`, collapse whitespace
runs to one space, strip. -/
def normalise_title (t : Str) : Str :=
  trimWs (collapseWs ((t.map pyLower).filter keepChar))

/-- The `normalise_title` of `src/dedupe_bbc_sport.py` (lines 41-44):
lower-case, collapse whitespace runs to one space, strip.  It has no
punctuation-stripping pass. -/
def normalise_title_sport (t : Str) : Str :=
  trimWs (collapseWs (t.map pyLower))

/-- The NLTK English stop-word set used by `scripts/dedupe_bbc_sport.py`
(`stopwords.words("english")`), modelled as a fixed list.  The NLTK data
also contains contracted forms such as `you're` or `don't`; those are
omitted here because `clean_title` replaces every non-`\w\s` character
(including the apostrophe) with a space before splitting, so no token it
tests for membership can ever contain an apostrophe, and the contracted
entries can never match. -/
def STOP_WORDS : List Str :=
  [txt (r"i"), txt (r"me"), txt (r"my"), txt (r"myself"), txt (r"we"), txt (r"our"),
   txt (r"ours"), txt (r"ourselves"), txt (r"you"), txt (r"your"), txt (r"yours"),
   txt (r"yourself"), txt (r"yourselves"), txt (r"he"), txt (r"him"), txt (r"his"),
   txt (r"himself"), txt (r"she"), txt (r"her"), txt (r"hers"), txt (r"herself"),
   txt (r"it"), txt (r"its"), txt (r"itself"), txt (r"they"), txt (r"them"),
   txt (r"their"), txt (r"theirs"), txt (r"themselves"), txt (r"what"), txt (r"which"),
   txt (r"who"), txt (r"whom"), txt (r"this"), txt (r"that"), txt (r"these"),
   txt (r"those"), txt (r"am"), txt (r"is"), txt (r"are"), txt (r"was"), txt (r"were"),
   txt (r"be"), txt (r"been"), txt (r"being"), txt (r"have"), txt (r"has"),
   txt (r"had"), txt (r"having"), txt (r"do"), txt (r"does"), txt (r"did"),
   txt (r"doing"), txt (r"a"), txt (r"an"), txt (r"the"), txt (r"and"), txt (r"but"),
   txt (r"if"), txt (r"or"), txt (r"because"), txt (r"as"), txt (r"until"),
   txt (r"while"), txt (r"of"), txt (r"at"), txt (r"by"), txt (r"for"), txt (r"with"),
   txt (r"about"), txt (r"against"), txt (r"between"), txt (r"into"), txt (r"through"),
   txt (r"during"), txt (r"before"), txt (r"after"), txt (r"above"), txt (r"below"),
   txt (r"to"), txt (r"from"), txt (r"up"), txt (r"down"), txt (r"in"), txt (r"out"),
   txt (r"on"), txt (r"off"), txt (r"over"), txt (r"under"), txt (r"again"),
   txt (r"further"), txt (r"then"), txt (r"once"), txt (r"here"), txt (r"there"),
   txt (r"when"), txt (r"where"), txt (r"why"), txt (r"how"), txt (r"all"),
   txt (r"any"), txt (r"both"), txt (r"each"), txt (r"few"), txt (r"more"),
   txt (r"most"), txt (r"other"), txt (r"some"), txt (r"such"), txt (r"no"),
   txt (r"nor"), txt (r"not"), txt (r"only"), txt (r"own"), txt (r"same"),
   txt (r"so"), txt (r"than"), txt (r"too"), txt (r"very"), txt (r"s"), txt (r"t"),
   txt (r"can"), txt (r"will"), txt (r"just"), txt (r"don"), txt (r"should"),
   txt (r"now"), txt (r"d"), txt (r"ll"), txt (r"m"), txt (r"o"), txt (r"re"),
   txt (r"ve"), txt (r"y"), txt (r"ain"), txt (r"aren"), txt (r"couldn"),
   txt (r"didn"), txt (r"doesn"), txt (r"hadn"), txt (r"hasn"), txt (r"haven"),
   txt (r"isn"), txt (r"ma"), txt (r"mightn"), txt (r"mustn"), txt (r"needn"),
   txt (r"shan"), txt (r"shouldn"), txt (r"wasn"), txt (r"weren"), txt (r"won"),
   txt (r"wouldn")]

/-- First pass of `clean_title`: `re.sub(r"[^\w\s]", " ", title)`, replacing
every character outside `\w` and `\s` by a space. -/
def punctToSpace (t : Str) : Str := t.map (fun c => if keepChar c then c else 32)

/-- Stable sort of token lists in Python's `sorted` order (lexicographic on
code points; `List.insertionSort` with `lexLe` is a stable `≤`-sort, as
Python's sort is). -/
def sortTokens (ws : List Str) : List Str :=
  List.insertionSort (fun a b => lexLe a b = true) ws

/-- The `clean_title` of `scripts/dedupe_bbc_sport.py` (lines 73-77):
replace punctuation by spaces, split, lower-case each word, drop
stop-words, sort the remaining words, join with single spaces. -/
def clean_title (t : Str) : Str :=
  joinSpace (sortTokens
    (((splitWs (punctToSpace t)).map (fun w => w.map pyLower)).filter
      (fun w => decide (w ∉ STOP_WORDS))))

/-- One dynamic-programming step of the longest-common-subsequence table:
given character `c` of the first string, the list `bs` of remaining
characters of the second string, the corresponding tail of the previous
row, the diagonal value and the value to the left, produce the rest of
the new row. -/
def lcsStepGo (c : Nat) : List Nat → List Nat → Nat → Nat → List Nat
  | [], _, _, _ => []
  | bj :: bs, prev, diag, left =>
    let up := prev.headI
    let cur := if bj = c then diag + 1 else max left up
    cur :: lcsStepGo c bs prev.tail up cur

/-- New LCS table row for character `c` against string `b`. -/
def lcsStep (c : Nat) (b : List Nat) (prev : List Nat) : List Nat :=
  0 :: lcsStepGo c b prev.tail prev.headI 0

/-- Length of the longest common subsequence of two code-point strings. -/
def lcsLen (a b : List Nat) : Nat :=
  (a.foldl (fun row c => lcsStep c b row) (List.replicate (b.length + 1) 0)).getLastD 0

/-- Model of `" ".join(sorted(s.split()))`, the token-sorted form used by
`fuzz.token_sort_ratio`. -/
def token_sort_key (a : Str) : Str := joinSpace (sortTokens (splitWs a))

/-- Model of `fuzz.token_sort_ratio(a, b) >= t`.  rapidfuzz's ratio is the
normalized indel similarity of the token-sorted strings `u`, `v`, scaled
to `[0, 100]`: `100·(|u| + |v| − dist)/(|u| + |v|)` with
`dist = |u| + |v| − 2·LCS(u, v)`, i.e. `200·LCS(u, v)/(|u| + |v|)`, and
`100` when both strings are empty.  The comparison against the integer
threshold `t` is modelled as the exact rational comparison
`t·(|u| + |v|) ≤ 200·LCS(u, v)`. -/
def tokenSortGe (a b : Str) (t : Nat) : Bool :=
  let u := token_sort_key a
  let v := token_sort_key b
  let den := u.length + v.length
  if den = 0 then decide (t ≤ 100) else decide (t * den ≤ 200 * lcsLen u v)

/-- A feed entry as the scripts consume it: identity, title, the feed it
came from, and its publication instant (seconds). -/
structure Entry where
  id : Nat
  title : Str
  feedId : Nat
  publishedAt : Nat
deriving DecidableEq

instance : Inhabited Entry := ⟨⟨0, [], 0, 0⟩⟩

/-- Comparison key of `group.sort(key=lambda e: e.get("published_at") or "")`
in `dedupe_bbc_tech.py` (ISO-UTC timestamp strings sort chronologically). -/
def pubLe (a b : Entry) : Prop := a.publishedAt ≤ b.publishedAt

instance : DecidableRel pubLe := fun a b => Nat.decLe a.publishedAt b.publishedAt

/-- Python's stable `list.sort` by publication time. -/
def sortPub (l : List Entry) : List Entry := List.insertionSort pubLe l

/-- A record of `seen_titles` in `find_cross_feed_duplicates`:
`(cleaned_title, entry_id, original_title, feed_id)`. -/
abbrev SeenRec := Str × Nat × Str × Nat

/-- The loop body of `find_cross_feed_duplicates`
(`scripts/dedupe_bbc_sport.py`, lines 117-141): for each entry, clean its
title and scan `seen` in order for the first record whose cleaned title
is fuzzy-similar at the sensitivity; on a hit append the entry id to
`dupes`, otherwise append a new record to `seen`. -/
def cfdGo (sens : Nat) (dupes : List Nat) (seen : List SeenRec) :
    List Entry → List Nat × List SeenRec
  | [] => (dupes, seen)
  | e :: rest =>
    let cleaned := clean_title e.title
    match seen.find? (fun r => tokenSortGe cleaned r.1 sens) with
    | some _ => cfdGo sens (dupes ++ [e.id]) seen rest
    | none => cfdGo sens dupes (seen ++ [(cleaned, e.id, e.title, e.feedId)]) rest

/-- The `find_cross_feed_duplicates` core of `scripts/dedupe_bbc_sport.py`:
the duplicate ids and the final `seen_titles` list. -/
def find_cross_feed_duplicates (sens : Nat) (entries : List Entry) :
    List Nat × List SeenRec :=
  cfdGo sens [] [] entries

/-- Append `x` to the first group keyed `k` of an insertion-ordered
association list, or add a new group at the end — the behaviour of
`defaultdict(list)[k].append(x)` under Python's insertion-ordered dicts. -/
def groupAdd {α : Type} (k : Str) (x : α) : List (Str × List α) → List (Str × List α)
  | [] => [(k, [x])]
  | (k0, g) :: rest =>
    if k0 = k then (k0, g ++ [x]) :: rest else (k0, g) :: groupAdd k x rest

/-- Grouping loop: skip items failing `okf`, otherwise add them to the
group of their key. -/
def groupGo {α : Type} (keyf : α → Str) (okf : α → Bool)
    (acc : List (Str × List α)) : List α → List (Str × List α)
  | [] => acc
  | x :: rest => groupGo keyf okf (if okf x then groupAdd (keyf x) x acc else acc) rest

/-- Group a list by key, in key-insertion order. -/
def groupAll {α : Type} (keyf : α → Str) (okf : α → Bool) (l : List α) :
    List (Str × List α) :=
  groupGo keyf okf [] l

/-- Members of the group keyed `k` (empty when the key is absent). -/
def lookupG {α : Type} (k : Str) (gs : List (Str × List α)) : List α :=
  match gs.find? (fun kg => decide (kg.1 = k)) with
  | some kg => kg.2
  | none => []

/-- The `grouped` dict of `dedupe_bbc_tech.py` (lines 83-89): unread
entries grouped by normalised title, skipping entries whose raw title is
empty. -/
def techGroups (entries : List Entry) : List (Str × List Entry) :=
  groupAll (fun e => normalise_title e.title) (fun e => decide (e.title ≠ [])) entries

/-- The `duplicates` list of `dedupe_bbc_tech.py` (lines 91-96): for each
group with more than one member, sort stably by publication time and take
everything after the first element. -/
def techDuplicates (entries : List Entry) : List Entry :=
  (techGroups entries).flatMap
    (fun kg => if 1 < kg.2.length then (sortPub kg.2).tail else [])

/-- The `by_title` dict of `dedupe_bbc_crossfeeds.py` (lines 91-99):
`(feed_id, entry)` pairs from all feeds in fetch order, grouped by
normalised title, skipping entries whose raw title is empty. -/
def byTitle (feeds : List (Nat × List Entry)) : List (Str × List (Nat × Entry)) :=
  groupAll (fun p => normalise_title p.2.title) (fun p => decide (p.2.title ≠ []))
    (feeds.flatMap (fun fe => fe.2.map (fun e => (fe.1, e))))

/-- Keeper feed of a duplicate group (`dedupe_bbc_crossfeeds.py`, line 110):
the configured keep feed when present among the group's feeds, else the
feed of the group's first item. -/
def keepFeedOf (keep : Nat) (items : List (Nat × Entry)) : Nat :=
  if keep ∈ items.map Prod.fst then keep else (items.headI).1

/-- Whether a group's items span more than one feed
(`dedupe_bbc_crossfeeds.py`, lines 105-107). -/
def multiFeedB (items : List (Nat × Entry)) : Bool :=
  decide (1 < ((items.map Prod.fst).dedup).length)

/-- The `to_mark_read` list of `dedupe_bbc_crossfeeds.py` (lines 102-115):
for every multi-feed group, every item not fetched from the keeper feed. -/
def crossfeedMarks (keep : Nat) (feeds : List (Nat × List Entry)) : List Entry :=
  (byTitle feeds).foldl
    (fun acc kg =>
      if multiFeedB kg.2 then
        acc ++ (kg.2.filter (fun p => decide (p.1 ≠ keepFeedOf keep kg.2))).map Prod.snd
      else acc)
    []

/-- The `within_window` of `dedupe_bbc_recent_updates.py` (lines 46-48)
with `WINDOW_HOURS = 24`: `now - published <= timedelta(hours=24)`.
Entries published after `now` satisfy it in Python (negative timedelta)
and here (truncated subtraction gives 0). -/
def within_window (e : Entry) (now : Nat) : Bool := decide (now - e.publishedAt ≤ 86400)

/-- The `seen_titles` set of `dedupe_bbc_recent_updates.py` (lines 87-95):
stripped raw titles of consumed entries inside the window, nonempty only.
The Python set is modelled as a list used solely through membership. -/
def seen_titles (consumed : List Entry) (now : Nat) : List Str :=
  consumed.foldl
    (fun acc e =>
      if within_window e now && decide (trimWs e.title ≠ []) then acc ++ [trimWs e.title]
      else acc)
    []

/-- The `to_mark_read` list of `dedupe_bbc_recent_updates.py`
(lines 97-111): nothing when no recently-read titles were collected,
otherwise every unread entry whose stripped title is nonempty and occurs
among the seen titles. -/
def to_mark_read_recent (consumed unread : List Entry) (now : Nat) : List Entry :=
  if seen_titles consumed now = [] then []
  else
    unread.foldl
      (fun acc e =>
        if decide (trimWs e.title ≠ []) && decide (trimWs e.title ∈ seen_titles consumed now)
        then acc ++ [e]
        else acc)
      []

/-- A fold appending `f x` for every `x` passing `p` is a filter-map. -/
theorem foldl_append_of_filter {α β : Type} (p : α → Bool) (f : α → β) :
    ∀ (l : List α) (a : List β),
      l.foldl (fun acc x => if p x then acc ++ [f x] else acc) a
        = a ++ (l.filter p).map f := by
  intro l
  induction l with
  | nil => intro a; simp
  | cons x rest ih =>
    intro a
    by_cases h : p x <;> simp [List.foldl_cons, h, ih, List.filter_cons]

/-- Characterization of the already-seen title collection: the titles in
fetch order of the consumed entries that are in-window with a nonempty
stripped title. -/
theorem seen_titles_eq (consumed : List Entry) (now : Nat) :
    seen_titles consumed now
      = (consumed.filter
          (fun e => within_window e now && decide (trimWs e.title ≠ []))).map
          (fun e => trimWs e.title) := by
  unfold seen_titles
  simpa using
    foldl_append_of_filter
      (fun e => within_window e now && decide (trimWs e.title ≠ []))
      (fun e => trimWs e.title) consumed []

/-- C2 counterexample entries: a consumed and an unread entry whose titles
differ only in letter case and punctuation. -/
def c2Consumed : Entry := ⟨1, txt (r"Hello!"), 482, 1000⟩

/-- Unread entry for the C2 counterexample. -/
def c2Unread : Entry := ⟨2, txt (r"hello"), 482, 1000⟩

/-- C2 counterexample: the claim says the Already-Seen Index is keyed by
the normalized key, so an unread item whose title differs from a
recently-consumed title only in case or punctuation is flagged.  In the
code the index holds raw stripped titles: here both titles have the same
normalized key, the consumed entry is inside the window, the unread title
is nonempty, and yet nothing is flagged. -/
theorem c2_counterexample :
    normalise_title c2Consumed.title = normalise_title c2Unread.title
    ∧ within_window c2Consumed 1000 = true
    ∧ trimWs c2Unread.title ≠ []
    ∧ to_mark_read_recent [c2Consumed] [c2Unread] 1000 = [] := by decide

/-- C2 (amended): the Already-Seen Index is keyed by the stripped raw
title, not the normalized key.  `seen_titles` holds exactly the nonempty
stripped titles of consumed entries inside the window, and the flagged
unread entries are exactly those whose nonempty stripped title occurs in
the index; titles differing in case or punctuation are not matched. -/
theorem c2_seen_index_raw_titles (consumed unread : List Entry) (now : Nat) :
    (∀ t : Str, t ∈ seen_titles consumed now ↔
      (t ≠ [] ∧ ∃ e, e ∈ consumed ∧ within_window e now = true ∧ trimWs e.title = t))
    ∧ to_mark_read_recent consumed unread now
      = unread.filter
          (fun e => decide (trimWs e.title ≠ [])
            && decide (trimWs e.title ∈ seen_titles consumed now)) := by
  constructor
  · intro t
    rw [seen_titles_eq]
    simp only [List.mem_map, List.mem_filter, Bool.and_eq_true, decide_eq_true_eq]
    constructor
    · rintro ⟨e, ⟨he, hw, hne⟩, ht⟩
      exact ⟨ht ▸ hne, e, he, hw, ht⟩
    · rintro ⟨hne, e, he, hw, ht⟩
      exact ⟨e, ⟨he, hw, ht ▸ hne⟩, ht⟩
  · unfold to_mark_read_recent
    by_cases h : seen_titles consumed now = []
    · rw [if_pos h]
      refine (List.filter_eq_nil_iff.mpr ?_).symm
      intro e _
      simp [h]
    · rw [if_neg h]
      simpa using
        foldl_append_of_filter
          (fun e => decide (trimWs e.title ≠ [])
            && decide (trimWs e.title ∈ seen_titles consumed now))
          (fun e => e) unread []

/-- C2 witness: the amended statement applied at a concrete input. -/
theorem c2_witness :
    txt (r"Bulletin") ∈ seen_titles [⟨7, txt (r" Bulletin "), 482, 50⟩] 60 := by
  have h :=
    (c2_seen_index_raw_titles [⟨7, txt (r" Bulletin "), 482, 50⟩] [] 60).1
      (txt (r"Bulletin"))
  exact h.mpr ⟨by decide, ⟨7, txt (r" Bulletin "), 482, 50⟩, by decide, by decide, by decide⟩

/-- C7: window boundary inclusivity.  A consumed entry published exactly
24 hours (86400 s) before `now` enters the Already-Seen Index, so an
unread entry with the same (nonempty) stripped title is flagged; a
consumed entry published 24 hours and one second before `now` is
excluded, and the unread entry is not flagged. -/
theorem c7_window_boundary (c c' u : Entry) (now : Nat)
    (h1 : 86401 ≤ now) (h2 : trimWs u.title ≠ []) :
    (c.publishedAt = now - 86400 → trimWs c.title = trimWs u.title →
      to_mark_read_recent [c] [u] now = [u])
    ∧ (c'.publishedAt = now - 86401 → trimWs c'.title = trimWs u.title →
      to_mark_read_recent [c'] [u] now = []) := by
  constructor
  · intro hp ht
    have hw : within_window c now = true := by
      unfold within_window
      rw [hp]
      simp only [decide_eq_true_eq]
      omega
    have hcne : trimWs c.title ≠ [] := ht ▸ h2
    have hseen : seen_titles [c] now = [trimWs c.title] := by
      unfold seen_titles
      simp [hw, hcne]
    unfold to_mark_read_recent
    rw [hseen]
    simp [h2, ht]
  · intro hp ht
    have hw : within_window c' now = false := by
      unfold within_window
      rw [hp]
      simp only [decide_eq_false_iff_not]
      omega
    have hseen : seen_titles [c'] now = [] := by
      unfold seen_titles
      simp [hw]
    unfold to_mark_read_recent
    rw [hseen]
    simp

/-- C7 witness: the boundary behaviour at a concrete instant. -/
theorem c7_witness :
    to_mark_read_recent [⟨1, txt (r"x"), 482, 13600⟩] [⟨2, txt (r"x"), 482, 99999⟩] 100000
        = [⟨2, txt (r"x"), 482, 99999⟩]
    ∧ to_mark_read_recent [⟨3, txt (r"x"), 482, 13599⟩] [⟨2, txt (r"x"), 482, 99999⟩] 100000
        = [] := by
  have h :=
    c7_window_boundary ⟨1, txt (r"x"), 482, 13600⟩ ⟨3, txt (r"x"), 482, 13599⟩
      ⟨2, txt (r"x"), 482, 99999⟩ 100000 (by decide) (by decide)
  exact ⟨h.1 (by decide) (by decide), h.2 (by decide) (by decide)⟩

/-- C9 (amended): similarity-pair monotonicity.  For fixed keys, raising
the threshold never adds a pair judged similar: a pair similar at the
higher threshold `t1` is similar at any lower threshold `t2`. -/
theorem c9_threshold_pair_monotone (a b : Str) (t1 t2 : Nat) (h : t2 < t1)
    (hs : tokenSortGe a b t1 = true) : tokenSortGe a b t2 = true := by
  unfold tokenSortGe at hs ⊢
  by_cases hd : (token_sort_key a).length + (token_sort_key b).length = 0
  · simp only [hd, if_pos] at hs ⊢
    simp only [decide_eq_true_eq] at hs ⊢
    omega
  · simp only [hd, if_neg, if_false] at hs ⊢
    simp only [decide_eq_true_eq] at hs ⊢
    calc t2 * ((token_sort_key a).length + (token_sort_key b).length)
        ≤ t1 * ((token_sort_key a).length + (token_sort_key b).length) :=
          Nat.mul_le_mul_right _ (Nat.le_of_lt h)
      _ ≤ 200 * lcsLen (token_sort_key a) (token_sort_key b) := hs

/-- C9 witness: pair monotonicity at a concrete pair and thresholds. -/
theorem c9_witness : tokenSortGe (txt (r"cup final")) (txt (r"final cup")) 80 = true :=
  c9_threshold_pair_monotone (txt (r"cup final")) (txt (r"final cup")) 100 80
    (by decide) (by decide)

/-- C9 counterexample batch: three entries whose pairwise scores are
non-transitive around the two thresholds (scores: 1–2 ≈ 82.4,
1–3 ≈ 77.8, 2–3 ≈ 95.2). -/
def c9Entries : List Entry :=
  [⟨1, txt (r"aaaaaaa"), 481, 0⟩, ⟨2, txt (r"aaaaaaaaaa"), 481, 1⟩,
   ⟨3, txt (r"aaaaaaaaaab"), 482, 2⟩]

/-- C9 counterexample: the set of items the first-match grouper marks
duplicate is not monotone in the threshold.  At sensitivity 90 the batch
marks entry 3 (it matches the open representative 2); at the lower
sensitivity 80 entry 2 is itself absorbed as a duplicate of 1, so entry 3
matches no representative and is marked at 90 but not at 80 — the
duplicate set under the stricter policy is not a subset of the laxer
one. -/
theorem c9_counterexample :
    (find_cross_feed_duplicates 90 c9Entries).1 = [3]
    ∧ (find_cross_feed_duplicates 80 c9Entries).1 = [2]
    ∧ 3 ∈ (find_cross_feed_duplicates 90 c9Entries).1
    ∧ 3 ∉ (find_cross_feed_duplicates 80 c9Entries).1 := by decide


/-- Lookup steps through one association pair. -/
theorem lookupG_cons {α : Type} (k k0 : Str) (g : List α) (rest : List (Str × List α)) :
    lookupG k ((k0, g) :: rest) = if k0 = k then g else lookupG k rest := by
  by_cases h : k0 = k
  · rw [if_pos h]
    unfold lookupG
    rw [List.find?_cons_of_pos _ (by simpa using h)]
  · rw [if_neg h]
    unfold lookupG
    rw [List.find?_cons_of_neg _ (by simpa using h)]

/-- Effect of `groupAdd` on a key lookup: only the group of the added key
changes, receiving the new item at its end. -/
theorem lookupG_groupAdd {α : Type} (k k' : Str) (x : α) :
    ∀ gs : List (Str × List α),
      lookupG k (groupAdd k' x gs)
        = if k = k' then lookupG k gs ++ [x] else lookupG k gs := by
  intro gs
  induction gs with
  | nil =>
    by_cases h : k = k'
    · subst h
      simp [groupAdd, lookupG_cons, lookupG]
    · have h' : ¬ k' = k := fun he => h he.symm
      simp [groupAdd, lookupG_cons, lookupG, h, h']
  | cons kg rest ih =>
    obtain ⟨k0, g⟩ := kg
    by_cases h0 : k0 = k'
    · subst h0
      simp only [groupAdd, if_pos rfl]
      by_cases h : k0 = k
      · subst h
        simp [lookupG_cons]
      · have hk : ¬ k = k0 := fun he => h he.symm
        simp [lookupG_cons, h, hk]
    · simp only [groupAdd, if_neg h0]
      by_cases h : k0 = k
      · subst h
        simp [lookupG_cons, h0]
      · simp [lookupG_cons, h, ih]


/-- Effect of `groupAdd` on the multiset of all grouped items: the item is
added. -/
theorem flat_groupAdd {α : Type} (k : Str) (x : α) :
    ∀ gs : List (Str × List α),
      ((groupAdd k x gs).flatMap Prod.snd).Perm (gs.flatMap Prod.snd ++ [x]) := by
  intro gs
  induction gs with
  | nil => simp [groupAdd]
  | cons kg rest ih =>
    obtain ⟨k0, g⟩ := kg
    by_cases h0 : k0 = k
    · simp only [groupAdd, if_pos h0, List.flatMap_cons]
      rw [List.append_assoc, List.append_assoc]
      exact List.Perm.append_left g List.perm_append_comm
    · simp only [groupAdd, if_neg h0, List.flatMap_cons]
      rw [List.append_assoc]
      exact List.Perm.append_left g ih

/-- Keys after `groupAdd`: unchanged when the key is already present,
otherwise the new key is appended at the end. -/
theorem keys_groupAdd {α : Type} (k : Str) (x : α) :
    ∀ gs : List (Str × List α),
      (groupAdd k x gs).map Prod.fst
        = if k ∈ gs.map Prod.fst then gs.map Prod.fst
          else gs.map Prod.fst ++ [k] := by
  intro gs
  induction gs with
  | nil => simp [groupAdd]
  | cons kg rest ih =>
    obtain ⟨k0, g⟩ := kg
    by_cases h0 : k0 = k
    · subst h0
      simp [groupAdd]
    · have hk : ¬ k = k0 := fun he => h0 he.symm
      simp only [groupAdd, if_neg h0, List.map_cons, List.mem_cons, hk, false_or]
      rw [ih]
      by_cases hm : k ∈ rest.map Prod.fst <;> simp [hm]

/-- Lookup after the grouping loop: the group of key `k` consists of the
group already accumulated for `k` followed by the accepted items of the
remaining input whose key is `k`, in input order. -/
theorem lookupG_groupGo {α : Type} (keyf : α → Str) (okf : α → Bool) (k : Str) :
    ∀ (l : List α) (acc : List (Str × List α)),
      lookupG k (groupGo keyf okf acc l)
        = lookupG k acc ++ (l.filter (fun x => okf x && decide (keyf x = k))) := by
  intro l
  induction l with
  | nil => intro acc; simp [groupGo]
  | cons x rest ih =>
    intro acc
    by_cases hok : okf x
    · simp only [groupGo, if_pos hok]
      rw [ih]
      by_cases hk : keyf x = k
      · rw [lookupG_groupAdd k (keyf x) x acc, if_pos hk.symm, List.filter_cons,
          List.append_assoc]
        simp [hok, hk]
      · have : ¬ k = keyf x := fun he => hk he.symm
        rw [lookupG_groupAdd k (keyf x) x acc, if_neg this, List.filter_cons]
        simp [hok, hk]
    · simp only [groupGo, if_neg hok]
      rw [ih, List.filter_cons]
      simp [hok]

/-- The grouping loop partitions the accepted items: flattening all groups
gives a permutation of the accumulator's items plus the accepted input. -/
theorem flat_groupGo {α : Type} (keyf : α → Str) (okf : α → Bool) :
    ∀ (l : List α) (acc : List (Str × List α)),
      ((groupGo keyf okf acc l).flatMap Prod.snd).Perm
        (acc.flatMap Prod.snd ++ l.filter okf) := by
  intro l
  induction l with
  | nil => intro acc; simp [groupGo]
  | cons x rest ih =>
    intro acc
    by_cases hok : okf x
    · simp only [groupGo, if_pos hok]
      refine (ih (groupAdd (keyf x) x acc)).trans ?_
      rw [List.filter_cons, if_pos hok]
      refine (List.Perm.append_right _ (flat_groupAdd (keyf x) x acc)).trans ?_
      rw [List.append_assoc]
      exact List.Perm.append_left _ (List.Perm.refl _)
    · simp only [groupGo, if_neg hok]
      rw [List.filter_cons, if_neg hok]
      exact ih acc

/-- The grouping loop keeps group keys pairwise distinct. -/
theorem keys_nodup_groupGo {α : Type} (keyf : α → Str) (okf : α → Bool) :
    ∀ (l : List α) (acc : List (Str × List α)),
      (acc.map Prod.fst).Nodup → ((groupGo keyf okf acc l).map Prod.fst).Nodup := by
  intro l
  induction l with
  | nil => intro acc h; simpa [groupGo] using h
  | cons x rest ih =>
    intro acc h
    by_cases hok : okf x
    · simp only [groupGo, if_pos hok]
      refine ih _ ?_
      rw [keys_groupAdd]
      by_cases hm : keyf x ∈ acc.map Prod.fst
      · simpa [hm] using h
      · rw [if_neg hm]
        simp [List.nodup_append, h, hm]
    · simp only [groupGo, if_neg hok]
      exact ih acc h

/-- A pair listed by the grouping loop is, with distinct keys, recovered by
lookup. -/
theorem mem_groups_eq_lookupG {α : Type} (k : Str) (g : List α) :
    ∀ gs : List (Str × List α),
      (gs.map Prod.fst).Nodup → (k, g) ∈ gs → g = lookupG k gs := by
  intro gs
  induction gs with
  | nil => intro _ h; simp at h
  | cons kg rest ih =>
    intro hnd hmem
    obtain ⟨k0, g0⟩ := kg
    rcases List.mem_cons.mp hmem with heq | htail
    · cases heq
      rw [lookupG_cons, if_pos rfl]
    · have hk0 : k0 ≠ k := by
        intro he
        subst he
        have : k0 ∈ rest.map Prod.fst := List.mem_map.mpr ⟨(k0, g), htail, rfl⟩
        simp [List.nodup_cons, this] at hnd
      rw [lookupG_cons, if_neg hk0]
      exact ih (by simp [List.nodup_cons] at hnd; exact hnd.2) htail

/-- Invariant of grouped association lists: groups are nonempty and every
member was accepted and carries the group's key. -/
def GroupInv {α : Type} (keyf : α → Str) (okf : α → Bool)
    (gs : List (Str × List α)) : Prop :=
  ∀ kg ∈ gs, kg.2 ≠ [] ∧ ∀ y ∈ kg.2, okf y = true ∧ keyf y = kg.1

/-- Adding an accepted item under its key preserves the invariant. -/
theorem groupAdd_inv {α : Type} (keyf : α → Str) (okf : α → Bool) (x : α)
    (hx : okf x = true) :
    ∀ gs : List (Str × List α), GroupInv keyf okf gs →
      GroupInv keyf okf (groupAdd (keyf x) x gs) := by
  intro gs
  induction gs with
  | nil =>
    intro _
    intro kg hkg
    simp only [groupAdd, List.mem_singleton] at hkg
    subst hkg
    exact ⟨by simp, by intro y hy; simp at hy; subst hy; exact ⟨hx, rfl⟩⟩
  | cons kg0 rest ih =>
    intro hinv
    obtain ⟨k0, g⟩ := kg0
    have hhead := hinv (k0, g) (List.mem_cons_self _ _)
    have htail : GroupInv keyf okf rest := fun kg h => hinv kg (List.mem_cons_of_mem _ h)
    by_cases h0 : k0 = keyf x
    · simp only [groupAdd, if_pos h0]
      intro kg hkg
      rcases List.mem_cons.mp hkg with heq | hmem
      · subst heq
        refine ⟨by simp, ?_⟩
        intro y hy
        rcases List.mem_append.mp hy with hg | hxx
        · exact hhead.2 y hg
        · simp at hxx
          subst hxx
          exact ⟨hx, h0.symm⟩
      · exact htail kg hmem
    · simp only [groupAdd, if_neg h0]
      intro kg hkg
      rcases List.mem_cons.mp hkg with heq | hmem
      · subst heq; exact hhead
      · exact ih htail kg hmem

/-- The grouping loop establishes the invariant. -/
theorem groupGo_inv {α : Type} (keyf : α → Str) (okf : α → Bool) :
    ∀ (l : List α) (acc : List (Str × List α)),
      GroupInv keyf okf acc → GroupInv keyf okf (groupGo keyf okf acc l) := by
  intro l
  induction l with
  | nil => intro acc h; simpa [groupGo] using h
  | cons x rest ih =>
    intro acc h
    by_cases hok : okf x
    · simp only [groupGo, if_pos hok]
      exact ih _ (groupAdd_inv keyf okf x hok acc h)
    · simp only [groupGo, if_neg hok]
      exact ih acc h

/-- The duplicate accumulator of `cfdGo` only grows at the end, and the
seen list is independent of it. -/
theorem cfdGo_acc (sens : Nat) :
    ∀ (l : List Entry) (d : List Nat) (s : List SeenRec),
      (cfdGo sens d s l).1 = d ++ (cfdGo sens [] s l).1
      ∧ (cfdGo sens d s l).2 = (cfdGo sens [] s l).2 := by
  intro l
  induction l with
  | nil => intro d s; simp [cfdGo]
  | cons e rest ih =>
    intro d s
    simp only [cfdGo]
    cases h : s.find? (fun r => tokenSortGe (clean_title e.title) r.1 sens) with
    | none =>
      exact ih d (s ++ [(clean_title e.title, e.id, e.title, e.feedId)])
    | some r =>
      simp only [List.nil_append]
      constructor
      · rw [(ih (d ++ [e.id]) s).1, (ih [e.id] s).1, List.append_assoc]
      · rw [(ih (d ++ [e.id]) s).2, (ih [e.id] s).2]

/-- Core of plan idempotence for the fuzzy engine: drop every entry whose
id is covered by `D` (a superset of the first run's duplicate ids) and
re-run from any seen list that is a sublist of the first run's; then no
duplicate is found. -/
theorem cfdGo_no_redupe (sens : Nat) :
    ∀ (l : List Entry) (s1 s2 : List SeenRec) (D : List Nat),
      s2.Sublist s1 →
      (∀ i ∈ (cfdGo sens [] s1 l).1, i ∈ D) →
      (cfdGo sens [] s2 (l.filter (fun e => decide (e.id ∉ D)))).1 = [] := by
  intro l
  induction l with
  | nil => intro s1 s2 D _ _; simp [cfdGo]
  | cons e rest ih =>
    intro s1 s2 D hsub hD
    cases h1 : s1.find? (fun r => tokenSortGe (clean_title e.title) r.1 sens) with
    | some r =>
      have hrun :
          (cfdGo sens [] s1 (e :: rest)).1 = e.id :: (cfdGo sens [] s1 rest).1 := by
        simp only [cfdGo, h1, List.nil_append]
        rw [(cfdGo_acc sens rest [e.id] s1).1]
        rfl
      have heD : e.id ∈ D := hD e.id (by rw [hrun]; exact List.mem_cons_self _ _)
      rw [List.filter_cons, if_neg (by simp [heD])]
      refine ih s1 s2 D hsub ?_
      intro i hi
      exact hD i (by rw [hrun]; exact List.mem_cons_of_mem _ hi)
    | none =>
      have hrun :
          (cfdGo sens [] s1 (e :: rest)).1
            = (cfdGo sens [] (s1 ++ [(clean_title e.title, e.id, e.title, e.feedId)]) rest).1 := by
        simp only [cfdGo, h1]
      have hrest :
          ∀ i ∈ (cfdGo sens []
              (s1 ++ [(clean_title e.title, e.id, e.title, e.feedId)]) rest).1, i ∈ D := by
        intro i hi
        exact hD i (by rw [hrun]; exact hi)
      by_cases he : e.id ∈ D
      · rw [List.filter_cons, if_neg (by simp [he])]
        exact ih (s1 ++ [(clean_title e.title, e.id, e.title, e.feedId)]) s2 D
          (hsub.trans (List.sublist_append_left s1 _)) hrest
      · rw [List.filter_cons, if_pos (by simp [he])]
        have h2 : s2.find? (fun r => tokenSortGe (clean_title e.title) r.1 sens) = none := by
          rw [List.find?_eq_none] at h1 ⊢
          intro x hx
          exact h1 x (hsub.subset hx)
        simp only [cfdGo, h2]
        exact ih (s1 ++ [(clean_title e.title, e.id, e.title, e.feedId)])
          (s2 ++ [(clean_title e.title, e.id, e.title, e.feedId)]) D
          (hsub.append (List.Sublist.refl _)) hrest

/-- The group of key `k` in the tech grouping is exactly the sublist of
entries with nonempty title normalising to `k`. -/
theorem techGroups_lookup (entries : List Entry) (k : Str) :
    lookupG k (techGroups entries)
      = entries.filter
          (fun e => decide (e.title ≠ []) && decide (normalise_title e.title = k)) := by
  unfold techGroups groupAll
  rw [lookupG_groupGo]
  simp [lookupG]

/-- A nonempty lookup result is itself listed among the groups. -/
theorem lookupG_mem {α : Type} (k : Str) (gs : List (Str × List α)) :
    lookupG k gs ≠ [] → (k, lookupG k gs) ∈ gs := by
  unfold lookupG
  cases h : gs.find? (fun kg => decide (kg.1 = k)) with
  | none => simp
  | some kg =>
    intro _
    have hm := List.mem_of_find?_eq_some h
    have hp := List.find?_some h
    simp only [decide_eq_true_eq] at hp
    obtain ⟨k1, g1⟩ := kg
    simpa [← hp] using hm

/-- Members after the first of a sorted multi-member tech group are all in
the duplicate list. -/
theorem tech_arm_subset (entries : List Entry) (k : Str) (g : List Entry)
    (hmem : (k, g) ∈ techGroups entries) (hlen : 1 < g.length) :
    ∀ x ∈ (sortPub g).tail, x ∈ techDuplicates entries := by
  intro x hx
  unfold techDuplicates
  refine List.mem_flatMap.mpr ⟨(k, g), hmem, ?_⟩
  simpa [hlen] using hx


/-- Auxiliary contradiction: if every post-head element of the sorted
group has its id in `D`, the group cannot keep two members once entries
with ids in `D` are removed. -/
theorem sorted_group_filter_short (g : List Entry) (D : List Nat)
    (harm : ∀ x ∈ (sortPub g).tail, x.id ∈ D)
    (hlen : 1 < (g.filter (fun e => decide (e.id ∉ D))).length) : False := by
  have hperm : (sortPub g).Perm g := List.perm_insertionSort pubLe g
  have hg'ne : g.filter (fun e => decide (e.id ∉ D)) ≠ [] := by
    intro h
    rw [h] at hlen
    simp at hlen
  have hgne : g ≠ [] := by
    intro h
    apply hg'ne
    rw [h]
    rfl
  obtain ⟨h0, t, hsort⟩ : ∃ h0 t, sortPub g = h0 :: t := by
    cases hs : sortPub g with
    | nil =>
      exfalso
      apply hgne
      have h2 := hperm
      rw [hs] at h2
      exact (List.Perm.nil_eq h2).symm
    | cons a b => exact ⟨a, b, rfl⟩
  have hall : ∀ x ∈ g.filter (fun e => decide (e.id ∉ D)), x = h0 := by
    intro x hx
    have hxid : x.id ∉ D := by simpa using (List.mem_filter.mp hx).2
    have hxg : x ∈ g := List.mem_of_mem_filter hx
    have hxs : x ∈ sortPub g := (List.Perm.mem_iff hperm).mpr hxg
    rw [hsort] at hxs
    rcases List.mem_cons.mp hxs with heq | ht
    · exact heq
    · exact absurd (harm x (by rw [hsort]; exact ht)) hxid
  obtain ⟨a, b, r, hdec⟩ :
      ∃ a b r, g.filter (fun e => decide (e.id ∉ D)) = a :: b :: r := by
    cases hc : g.filter (fun e => decide (e.id ∉ D)) with
    | nil => rw [hc] at hlen; simp at hlen
    | cons a rest =>
      cases rest with
      | nil => rw [hc] at hlen; simp at hlen
      | cons b r => exact ⟨a, b, r, rfl⟩
  have ha : a = h0 := hall a (by rw [hdec]; simp)
  have hb : b = h0 := hall b (by rw [hdec]; simp)
  have hcnt2 : 2 ≤ (g.filter (fun e => decide (e.id ∉ D))).count h0 := by
    rw [hdec, ha, hb]
    simp [List.count_cons_self]
  have hcntg := le_trans hcnt2 ((List.filter_sublist g).count_le h0)
  rw [← hperm.count_eq h0, hsort, List.count_cons_self] at hcntg
  have hmt : h0 ∈ t := List.count_pos_iff.mp (by omega)
  have h0id : h0.id ∈ D := harm h0 (by rw [hsort]; exact hmt)
  have h0g' : h0 ∈ g.filter (fun e => decide (e.id ∉ D)) := by
    rw [hdec, ha]
    simp
  have : h0.id ∉ D := by simpa using (List.mem_filter.mp h0g').2
  exact this h0id

/-- Plan idempotence for the tech engine: after removing every entry whose
id was marked duplicate, a second run marks nothing. -/
theorem tech_no_redupe (entries : List Entry) :
    techDuplicates
      (entries.filter
        (fun e => decide (e.id ∉ (techDuplicates entries).map Entry.id))) = [] := by
  apply List.flatMap_eq_nil_iff.mpr
  intro kg hmem
  obtain ⟨k, g'⟩ := kg
  by_cases hlen : 1 < g'.length
  swap
  · simp [hlen]
  exfalso
  have hnd :
      ((techGroups (entries.filter
        (fun e => decide (e.id ∉ (techDuplicates entries).map Entry.id)))).map
          Prod.fst).Nodup := by
    unfold techGroups groupAll
    exact keys_nodup_groupGo _ _ _ [] (by simp)
  have hg' := mem_groups_eq_lookupG k g' _ hnd hmem
  rw [techGroups_lookup, List.filter_filter] at hg'
  have hswap :
      (fun e : Entry => (decide (e.title ≠ []) && decide (normalise_title e.title = k))
          && decide (e.id ∉ (techDuplicates entries).map Entry.id))
        = (fun e : Entry => decide (e.id ∉ (techDuplicates entries).map Entry.id)
          && (decide (e.title ≠ []) && decide (normalise_title e.title = k))) := by
    funext e
    exact Bool.and_comm _ _
  rw [hswap, ← List.filter_filter] at hg'
  have hg :
      entries.filter
          (fun e => decide (e.title ≠ []) && decide (normalise_title e.title = k))
        = lookupG k (techGroups entries) := (techGroups_lookup entries k).symm
  have hlen2 :
      1 < ((entries.filter
        (fun e => decide (e.title ≠ []) && decide (normalise_title e.title = k))).filter
        (fun e => decide (e.id ∉ (techDuplicates entries).map Entry.id))).length := by
    rw [← hg']
    exact hlen
  have hglen :
      1 < (entries.filter
        (fun e => decide (e.title ≠ []) && decide (normalise_title e.title = k))).length :=
    lt_of_lt_of_le hlen2 (List.Sublist.length_le (List.filter_sublist _))
  have hgne :
      entries.filter
        (fun e => decide (e.title ≠ []) && decide (normalise_title e.title = k)) ≠ [] := by
    intro h
    rw [h] at hglen
    simp at hglen
  have hmemg :
      (k, entries.filter
        (fun e => decide (e.title ≠ []) && decide (normalise_title e.title = k)))
        ∈ techGroups entries := by
    have := lookupG_mem k (techGroups entries) (by rw [← hg]; exact hgne)
    rwa [← hg] at this
  have harm :
      ∀ x ∈ (sortPub (entries.filter
        (fun e => decide (e.title ≠ []) && decide (normalise_title e.title = k)))).tail,
        x.id ∈ (techDuplicates entries).map Entry.id := by
    intro x hx
    exact List.mem_map.mpr ⟨x, tech_arm_subset entries k _ hmemg hglen x hx, rfl⟩
  exact sorted_group_filter_short _ _ harm hlen2

/-- C3: plan idempotence.  For every batch and sensitivity, removing the
marked duplicates from the batch and re-running yields no same-feed or
cross-feed duplicate marks: the fuzzy cross-feed engine finds no
duplicate ids on the remainder, and the tech exact engine finds no
duplicates on the remainder. -/
theorem c3_plan_idempotent (sens : Nat) (entries : List Entry) :
    (find_cross_feed_duplicates sens
      (entries.filter
        (fun e => decide (e.id ∉ (find_cross_feed_duplicates sens entries).1)))).1 = []
    ∧ techDuplicates
        (entries.filter
          (fun e => decide (e.id ∉ (techDuplicates entries).map Entry.id))) = [] :=
  ⟨cfdGo_no_redupe sens entries [] [] _ (List.Sublist.refl _) (fun _ h => h),
   tech_no_redupe entries⟩

/-- A fold appending `f x` per element is a flatMap. -/
theorem foldl_append_flatMap {α β : Type} (f : α → List β) :
    ∀ (l : List α) (a : List β),
      l.foldl (fun acc x => acc ++ f x) a = a ++ l.flatMap f := by
  intro l
  induction l with
  | nil => intro a; simp
  | cons x rest ih => intro a; simp [List.foldl_cons, ih, List.append_assoc]

/-- The cross-feed mark list, group by group: for each multi-feed group
its items outside the keeper feed, in order; single-feed groups
contribute nothing. -/
theorem crossfeedMarks_eq (keep : Nat) (feeds : List (Nat × List Entry)) :
    crossfeedMarks keep feeds
      = (byTitle feeds).flatMap
          (fun kg =>
            if multiFeedB kg.2 then
              (kg.2.filter (fun p => decide (p.1 ≠ keepFeedOf keep kg.2))).map Prod.snd
            else []) := by
  unfold crossfeedMarks
  have hfun :
      (fun (acc : List Entry) (kg : Str × List (Nat × Entry)) =>
        if multiFeedB kg.2 then
          acc ++ (kg.2.filter (fun p => decide (p.1 ≠ keepFeedOf keep kg.2))).map Prod.snd
        else acc)
      = (fun acc kg =>
        acc ++ (if multiFeedB kg.2 then
          (kg.2.filter (fun p => decide (p.1 ≠ keepFeedOf keep kg.2))).map Prod.snd
        else [])) := by
    funext acc kg
    by_cases h : multiFeedB kg.2 <;> simp [h]
  rw [hfun]
  simpa using foldl_append_flatMap _ (byTitle feeds) []

/-- C5 (amended): entries whose raw title is empty are excluded.  Every
entry marked by the tech engine or the cross-feed engine has a nonempty
raw title, and every entry flagged by the window check has a nonempty
stripped title.  (The original claim fails for nonempty titles that
normalise to the empty key — see the counterexample.) -/
theorem c5_empty_title_excluded (entries : List Entry) (keep : Nat)
    (feeds : List (Nat × List Entry)) (consumed unread : List Entry) (now : Nat) :
    (∀ e ∈ techDuplicates entries, e.title ≠ [])
    ∧ (∀ e ∈ crossfeedMarks keep feeds, e.title ≠ [])
    ∧ (∀ e ∈ to_mark_read_recent consumed unread now, trimWs e.title ≠ []) := by
  refine ⟨?_, ?_, ?_⟩
  · intro e he
    unfold techDuplicates at he
    obtain ⟨kg, hkg, harm⟩ := List.mem_flatMap.mp he
    have hinv : GroupInv (fun e => normalise_title e.title) (fun e => decide (e.title ≠ []))
        (techGroups entries) := by
      unfold techGroups groupAll
      exact groupGo_inv _ _ entries [] (fun kg h => by simp at h)
    by_cases hlen : 1 < kg.2.length
    · rw [if_pos hlen] at harm
      have hes : e ∈ sortPub kg.2 := List.mem_of_mem_tail harm
      have heg : e ∈ kg.2 :=
        (List.Perm.mem_iff (List.perm_insertionSort pubLe kg.2)).mp hes
      have := (hinv kg hkg).2 e heg
      simpa using this.1
    · rw [if_neg hlen] at harm
      simp at harm
  · intro e he
    rw [crossfeedMarks_eq] at he
    obtain ⟨kg, hkg, harm⟩ := List.mem_flatMap.mp he
    have hinv : GroupInv (fun p : Nat × Entry => normalise_title p.2.title)
        (fun p => decide (p.2.title ≠ [])) (byTitle feeds) := by
      unfold byTitle groupAll
      exact groupGo_inv _ _ _ [] (fun kg h => by simp at h)
    by_cases hmf : multiFeedB kg.2
    · rw [if_pos hmf] at harm
      obtain ⟨p, hp, hpe⟩ := List.mem_map.mp harm
      have hpg : p ∈ kg.2 := List.mem_of_mem_filter hp
      have := (hinv kg hkg).2 p hpg
      rw [← hpe]
      simpa using this.1
    · rw [if_neg hmf] at harm
      simp at harm
  · intro e he
    unfold to_mark_read_recent at he
    by_cases h : seen_titles consumed now = []
    · rw [if_pos h] at he
      simp at he
    · rw [if_neg h] at he
      rw [foldl_append_of_filter
        (fun e => decide (trimWs e.title ≠ [])
          && decide (trimWs e.title ∈ seen_titles consumed now)) (fun e => e) unread []] at he
      simp only [List.nil_append, List.map_id', List.mem_filter, Bool.and_eq_true,
        decide_eq_true_eq] at he
      exact he.2.1

/-- C5 counterexample entries: punctuation-only titles in two feeds. -/
def c5ItemA : Entry := ⟨1, txt (r"!!!"), 482, 10⟩

/-- Second punctuation-only entry for the C5 counterexample. -/
def c5ItemB : Entry := ⟨2, txt (r"???"), 621, 20⟩

/-- C5 counterexample: an item whose (nonempty) title normalises to the
empty key DOES join a duplicate group and ends up in the action plan —
both punctuation-only titles share the empty key, the cross-feed script
groups them and marks the non-keep-feed one — and the fuzzy matcher
scores two empty cleaned titles 100, judging them similar. -/
theorem c5_counterexample :
    normalise_title c5ItemA.title = []
    ∧ normalise_title c5ItemB.title = []
    ∧ byTitle [(482, [c5ItemA]), (621, [c5ItemB])]
        = [([], [(482, c5ItemA), (621, c5ItemB)])]
    ∧ crossfeedMarks 482 [(482, [c5ItemA]), (621, [c5ItemB])] = [c5ItemB]
    ∧ clean_title c5ItemA.title = []
    ∧ tokenSortGe (clean_title c5ItemA.title) (clean_title c5ItemB.title) 88 = true
    ∧ (find_cross_feed_duplicates 88 [c5ItemA, c5ItemB]).1 = [2] := by decide

/-- C5 witness: the amended exclusion applied at a concrete input. -/
theorem c5_witness :
    (⟨2, txt (r"x"), 508, 9⟩ : Entry).title ≠ [] := by
  have h :=
    (c5_empty_title_excluded
      [⟨1, txt (r"x"), 508, 5⟩, ⟨2, txt (r"x"), 508, 9⟩] 0 [] [] [] 0).1
  exact h ⟨2, txt (r"x"), 508, 9⟩ (by decide)

/-- Head of the stable publication sort: it is a member attaining the
minimal publication time, and it is the FIRST such member in input order
(everything before it in the input is strictly later). -/
theorem sortPub_head_first_min :
    ∀ l : List Entry, l ≠ [] →
      ∃ keeper rest, sortPub l = keeper :: rest
        ∧ (∀ x ∈ l, keeper.publishedAt ≤ x.publishedAt)
        ∧ ∃ pre post, l = pre ++ keeper :: post
          ∧ ∀ x ∈ pre, keeper.publishedAt < x.publishedAt := by
  intro l
  induction l with
  | nil => intro h; exact absurd rfl h
  | cons x l ih =>
    intro _
    by_cases hl : l = []
    · subst hl
      exact ⟨x, [], rfl, by simp, [], [], rfl, by simp⟩
    · obtain ⟨k, r, hsort, hmin, pre, post, hdecomp, hpre⟩ := ih hl
      unfold sortPub at hsort
      by_cases hx : pubLe x k
      · refine ⟨x, k :: r, ?_, ?_, [], l, rfl, by simp⟩
        · unfold sortPub
          rw [List.insertionSort, hsort]
          simp [List.orderedInsert, hx]
        · intro y hy
          rcases List.mem_cons.mp hy with heq | hyl
          · subst heq; exact Nat.le_refl _
          · exact Nat.le_trans hx (hmin y hyl)
      · have hkx : k.publishedAt < x.publishedAt := by
          unfold pubLe at hx
          omega
        refine ⟨k, List.orderedInsert pubLe x r, ?_, ?_, x :: pre, post, ?_, ?_⟩
        · unfold sortPub
          rw [List.insertionSort, hsort]
          simp [List.orderedInsert, hx]
        · intro y hy
          rcases List.mem_cons.mp hy with heq | hyl
          · subst heq; exact Nat.le_of_lt hkx
          · exact hmin y hyl
        · rw [hdecomp]; rfl
        · intro y hy
          rcases List.mem_cons.mp hy with heq | hyp
          · subst heq; exact hkx
          · exact hpre y hyp

/-- C1 (amended): keeper resolution as the code implements it.  For the
tech engine every multi-member group keeps exactly its first member with
the earliest publication time (stable sort head: minimal, and first
among minimal in input order) and every other sorted member is marked.
For the cross-feed engine the plan is, group by group, every item of a
multi-feed group outside the keeper FEED — all items of the keep feed are
retained, not a single keeper item — and the keeper feed is the
configured feed whenever present among the group's feeds. -/
theorem c1_keeper_resolution (entries : List Entry) (keep : Nat)
    (feeds : List (Nat × List Entry)) :
    (∀ k g, (k, g) ∈ techGroups entries → 1 < g.length →
      ∃ keeper rest, sortPub g = keeper :: rest
        ∧ keeper ∈ g
        ∧ (∀ x ∈ g, keeper.publishedAt ≤ x.publishedAt)
        ∧ (∃ pre post, g = pre ++ keeper :: post
            ∧ ∀ x ∈ pre, keeper.publishedAt < x.publishedAt)
        ∧ ∀ x ∈ rest, x ∈ techDuplicates entries)
    ∧ crossfeedMarks keep feeds
      = (byTitle feeds).flatMap
          (fun kg =>
            if multiFeedB kg.2 then
              (kg.2.filter (fun p => decide (p.1 ≠ keepFeedOf keep kg.2))).map Prod.snd
            else [])
    ∧ (∀ k items, (k, items) ∈ byTitle feeds → keep ∈ items.map Prod.fst →
        keepFeedOf keep items = keep) := by
  refine ⟨?_, crossfeedMarks_eq keep feeds, ?_⟩
  · intro k g hmem hlen
    have hne : g ≠ [] := by
      intro h
      rw [h] at hlen
      simp at hlen
    obtain ⟨keeper, rest, hsort, hmin, pre, post, hdecomp, hpre⟩ :=
      sortPub_head_first_min g hne
    refine ⟨keeper, rest, hsort, ?_, hmin, ⟨pre, post, hdecomp, hpre⟩, ?_⟩
    · rw [hdecomp]
      exact List.mem_append_right pre (List.mem_cons_self _ _)
    · intro x hx
      exact tech_arm_subset entries k g hmem hlen x (by rw [hsort]; exact hx)
  · intro k items _ hkeep
    unfold keepFeedOf
    rw [if_pos hkeep]

/-- C1 counterexample entries: two same-titled entries in the keep feed
(482) and one in the other feed (621). -/
def c1KeepLate : Entry := ⟨1, txt (r"t"), 482, 10⟩

/-- The keep-feed entry with the earliest publication time. -/
def c1KeepEarly : Entry := ⟨2, txt (r"t"), 482, 5⟩

/-- The other-feed entry of the C1 counterexample group. -/
def c1Other : Entry := ⟨3, txt (r"t"), 621, 7⟩

/-- C1 counterexample: the duplicate group has three members; the claim
says exactly one member (the keep-feed member with the earliest
publishedAt, here entry 2) is the keeper and every other member appears
in the plan.  The code marks only the 621-feed entry: no choice of a
single keeper makes all other members appear in the plan, because both
keep-feed entries are retained regardless of publishedAt. -/
theorem c1_counterexample :
    byTitle [(482, [c1KeepLate, c1KeepEarly]), (621, [c1Other])]
      = [(txt (r"t"), [(482, c1KeepLate), (482, c1KeepEarly), (621, c1Other)])]
    ∧ crossfeedMarks 482 [(482, [c1KeepLate, c1KeepEarly]), (621, [c1Other])] = [c1Other]
    ∧ ¬ (∃ keeper ∈ [c1KeepLate, c1KeepEarly, c1Other],
          ∀ x ∈ [c1KeepLate, c1KeepEarly, c1Other], x ≠ keeper →
            x ∈ crossfeedMarks 482 [(482, [c1KeepLate, c1KeepEarly]), (621, [c1Other])]) := by
  decide

/-- C1 witness: the amended tech keeper statement at a concrete group. -/
theorem c1_witness :
    ∃ keeper rest,
      sortPub [⟨1, txt (r"s"), 508, 9⟩, ⟨2, txt (r"s"), 508, 4⟩] = keeper :: rest
      ∧ keeper ∈ [(⟨1, txt (r"s"), 508, 9⟩ : Entry), ⟨2, txt (r"s"), 508, 4⟩]
      ∧ (∀ x ∈ [(⟨1, txt (r"s"), 508, 9⟩ : Entry), ⟨2, txt (r"s"), 508, 4⟩],
          keeper.publishedAt ≤ x.publishedAt)
      ∧ (∃ pre post,
          [(⟨1, txt (r"s"), 508, 9⟩ : Entry), ⟨2, txt (r"s"), 508, 4⟩]
            = pre ++ keeper :: post
          ∧ ∀ x ∈ pre, keeper.publishedAt < x.publishedAt)
      ∧ ∀ x ∈ rest,
          x ∈ techDuplicates [⟨1, txt (r"s"), 508, 9⟩, ⟨2, txt (r"s"), 508, 4⟩] := by
  have h :=
    (c1_keeper_resolution [⟨1, txt (r"s"), 508, 9⟩, ⟨2, txt (r"s"), 508, 4⟩] 0 []).1
      (txt (r"s")) [⟨1, txt (r"s"), 508, 9⟩, ⟨2, txt (r"s"), 508, 4⟩]
      (by decide) (by decide)
  exact h

/-- Shuffle lemma for concatenations of two flatMaps. -/
theorem append_shuffle_perm {β : Type} (a b F H : List β) :
    ((a ++ F) ++ (b ++ H)).Perm ((a ++ b) ++ (F ++ H)) := by
  simp only [List.append_assoc]
  refine List.Perm.append_left a ?_
  rw [← List.append_assoc, ← List.append_assoc]
  exact List.Perm.append_right H List.perm_append_comm

/-- A pairwise decomposition of each group's members extends to the
flatMaps. -/
theorem flatMap_append_perm {α β : Type} (f h j : α → List β) :
    ∀ gs : List α, (∀ kg ∈ gs, ((f kg ++ h kg).Perm (j kg))) →
      (gs.flatMap f ++ gs.flatMap h).Perm (gs.flatMap j) := by
  intro gs
  induction gs with
  | nil => intro _; simp
  | cons kg rest ih =>
    intro hall
    simp only [List.flatMap_cons]
    refine (append_shuffle_perm (f kg) (h kg) (rest.flatMap f) (rest.flatMap h)).trans ?_
    exact List.Perm.append (hall kg (List.mem_cons_self _ _))
      (ih (fun x hx => hall x (List.mem_cons_of_mem _ hx)))

/-- The sorted head of a group, as a (zero- or one-element) list. -/
def headOf (kg : Str × List Entry) : List Entry := (sortPub kg.2).head?.toList

/-- Every nonempty group splits, as a multiset, into its duplicate arm and
its sorted head. -/
theorem arm_head_perm (kg : Str × List Entry) (hne : kg.2 ≠ []) :
    (((if 1 < kg.2.length then (sortPub kg.2).tail else []) ++ headOf kg).Perm kg.2) := by
  have hperm : (sortPub kg.2).Perm kg.2 := List.perm_insertionSort pubLe kg.2
  obtain ⟨h, t, hsort⟩ : ∃ h t, sortPub kg.2 = h :: t := by
    cases hs : sortPub kg.2 with
    | nil =>
      exfalso
      apply hne
      have h2 := hperm
      rw [hs] at h2
      exact (List.Perm.nil_eq h2).symm
    | cons a b => exact ⟨a, b, rfl⟩
  unfold headOf
  rw [hsort]
  by_cases hlen : 1 < kg.2.length
  · rw [if_pos hlen]
    simp only [List.head?_cons, Option.toList_some]
    refine List.Perm.trans ?_ ((hsort ▸ hperm :))
    exact List.perm_append_comm
  · rw [if_neg hlen]
    have hlen1 : kg.2.length = 1 := by
      have := List.length_pos.mpr hne
      omega
    have : (sortPub kg.2).length = 1 := by rw [hperm.length_eq, hlen1]
    rw [hsort] at this
    have ht : t = [] := by
      simp at this
      exact this
    subst ht
    have : kg.2 = [h] := by
      have h2 := hperm
      rw [hsort] at h2
      exact h2.symm.eq_singleton
    rw [this]
    simp

/-- With globally distinct entry ids, the tech duplicates and the group
heads together carry distinct ids. -/
theorem tech_partition_nodup (entries : List Entry)
    (hnd : (entries.map Entry.id).Nodup) :
    ((techDuplicates entries ++ (techGroups entries).flatMap headOf).map
      Entry.id).Nodup := by
  have hinv : GroupInv (fun e : Entry => normalise_title e.title)
      (fun e => decide (e.title ≠ [])) (techGroups entries) := by
    unfold techGroups groupAll
    exact groupGo_inv _ _ entries [] (fun kg h => by simp at h)
  have hperm1 :
      ((techDuplicates entries ++ (techGroups entries).flatMap headOf)).Perm
        ((techGroups entries).flatMap Prod.snd) := by
    unfold techDuplicates
    exact flatMap_append_perm _ headOf Prod.snd (techGroups entries)
      (fun kg hkg => arm_head_perm kg (hinv kg hkg).1)
  have hperm2 :
      (((techGroups entries).flatMap Prod.snd)).Perm
        (entries.filter (fun e => decide (e.title ≠ []))) := by
    unfold techGroups groupAll
    simpa using flat_groupGo (fun e : Entry => normalise_title e.title)
      (fun e => decide (e.title ≠ [])) entries []
  have hid : ((entries.filter (fun e => decide (e.title ≠ []))).map Entry.id).Nodup :=
    List.Nodup.sublist (List.Sublist.map Entry.id (List.filter_sublist entries)) hnd
  exact ((hperm1.trans hperm2).map Entry.id).nodup_iff.mpr hid

/-- The retained items of a cross-feed group: everything in a single-feed
group, and the keeper feed's items in a multi-feed group. -/
def crossRetained (keep : Nat) (kg : Str × List (Nat × Entry)) : List Entry :=
  if multiFeedB kg.2 then
    (kg.2.filter (fun p => decide (p.1 = keepFeedOf keep kg.2))).map Prod.snd
  else kg.2.map Prod.snd

/-- With globally distinct entry ids, the cross-feed marks and the
retained items together carry distinct ids. -/
theorem crossfeed_partition_nodup (keep : Nat) (feeds : List (Nat × List Entry))
    (hnd : ((feeds.flatMap Prod.snd).map Entry.id).Nodup) :
    ((crossfeedMarks keep feeds
      ++ (byTitle feeds).flatMap (crossRetained keep)).map Entry.id).Nodup := by
  have hperm1 :
      ((crossfeedMarks keep feeds ++ (byTitle feeds).flatMap (crossRetained keep))).Perm
        ((byTitle feeds).flatMap (fun kg => kg.2.map Prod.snd)) := by
    rw [crossfeedMarks_eq]
    refine flatMap_append_perm _ _ _ (byTitle feeds) ?_
    intro kg _
    unfold crossRetained
    by_cases hm : multiFeedB kg.2
    · rw [if_pos hm, if_pos hm, ← List.map_append]
      refine List.Perm.map Prod.snd ?_
      have hfun :
          (fun p : Nat × Entry => decide (p.1 = keepFeedOf keep kg.2))
            = (fun p => !(decide (p.1 ≠ keepFeedOf keep kg.2))) := by
        funext p
        by_cases h : p.1 = keepFeedOf keep kg.2 <;> simp [h]
      rw [hfun]
      exact List.filter_append_perm _ kg.2
    · rw [if_neg hm, if_neg hm]
      simp
  have hperm2 :
      (((byTitle feeds).flatMap (fun kg => kg.2.map Prod.snd))).Perm
        ((feeds.flatMap
          (fun fe => fe.2.map (fun e => (fe.1, e)))).filter
            (fun p => decide (p.2.title ≠ [])) |>.map Prod.snd) := by
    rw [← List.map_flatMap]
    refine List.Perm.map Prod.snd ?_
    unfold byTitle groupAll
    simpa using flat_groupGo (fun p : Nat × Entry => normalise_title p.2.title)
      (fun p => decide (p.2.title ≠ []))
      (feeds.flatMap (fun fe => fe.2.map (fun e => (fe.1, e)))) []
  have hmapsnd :
      ((feeds.flatMap (fun fe => fe.2.map (fun e => (fe.1, e)))).map Prod.snd)
        = feeds.flatMap Prod.snd := by
    rw [List.map_flatMap]
    congr 1
    funext fe
    rw [List.map_map]
    simp
  have hid :
      (((feeds.flatMap
        (fun fe => fe.2.map (fun e => (fe.1, e)))).filter
          (fun p => decide (p.2.title ≠ [])) |>.map Prod.snd).map Entry.id).Nodup := by
    refine List.Nodup.sublist ?_ hnd
    rw [← hmapsnd]
    exact List.Sublist.map Entry.id
      (List.Sublist.map Prod.snd (List.filter_sublist _))
  exact ((hperm1.trans hperm2).map Entry.id).nodup_iff.mpr hid

/-- C4: no double-counting.  Under the data-model assumption that ids are
unique within a batch, no id appears twice in the mark list, and no
keeper id (the sorted head of a tech group; any retained keep-feed item
of a cross-feed group) appears in the mark list. -/
theorem c4_no_double_counting (entries : List Entry) (keep : Nat)
    (feeds : List (Nat × List Entry)) :
    ((entries.map Entry.id).Nodup →
      ((techDuplicates entries).map Entry.id).Nodup
      ∧ (∀ k g keeper rest, (k, g) ∈ techGroups entries →
          sortPub g = keeper :: rest →
          keeper.id ∉ (techDuplicates entries).map Entry.id))
    ∧ (((feeds.flatMap Prod.snd).map Entry.id).Nodup →
      ((crossfeedMarks keep feeds).map Entry.id).Nodup
      ∧ (∀ k items p, (k, items) ∈ byTitle feeds → p ∈ items →
          p.1 = keepFeedOf keep items →
          p.2.id ∉ (crossfeedMarks keep feeds).map Entry.id)) := by
  constructor
  · intro hnd
    have hpart := tech_partition_nodup entries hnd
    rw [List.map_append] at hpart
    obtain ⟨hd1, _, hdisj⟩ := List.nodup_append.mp hpart
    refine ⟨hd1, ?_⟩
    intro k g keeper rest hmem hsort hk
    refine hdisj hk ?_
    refine List.mem_map.mpr ⟨keeper, ?_, rfl⟩
    refine List.mem_flatMap.mpr ⟨(k, g), hmem, ?_⟩
    unfold headOf
    rw [hsort]
    simp
  · intro hnd
    have hpart := crossfeed_partition_nodup keep feeds hnd
    rw [List.map_append] at hpart
    obtain ⟨hd1, _, hdisj⟩ := List.nodup_append.mp hpart
    refine ⟨hd1, ?_⟩
    intro k items p hmem hp hpk hk
    refine hdisj hk ?_
    refine List.mem_map.mpr ⟨p.2, ?_, rfl⟩
    refine List.mem_flatMap.mpr ⟨(k, items), hmem, ?_⟩
    unfold crossRetained
    by_cases hm : multiFeedB items
    · rw [if_pos hm]
      exact List.mem_map.mpr ⟨p, List.mem_filter.mpr ⟨hp, by simp [hpk]⟩, rfl⟩
    · rw [if_neg hm]
      exact List.mem_map.mpr ⟨p, hp, rfl⟩

/-- C4 witness: the no-double-counting statement at concrete batches. -/
theorem c4_witness :
    ((techDuplicates
      [⟨1, txt (r"s"), 508, 9⟩, ⟨2, txt (r"s"), 508, 4⟩]).map Entry.id).Nodup
    ∧ (⟨2, txt (r"s"), 508, 4⟩ : Entry).id
        ∉ (techDuplicates
          [⟨1, txt (r"s"), 508, 9⟩, ⟨2, txt (r"s"), 508, 4⟩]).map Entry.id
    ∧ ((crossfeedMarks 482 [(482, [⟨1, txt (r"t"), 482, 10⟩]),
        (621, [⟨2, txt (r"t"), 621, 7⟩])]).map Entry.id).Nodup
    ∧ (⟨1, txt (r"t"), 482, 10⟩ : Entry).id
        ∉ (crossfeedMarks 482 [(482, [⟨1, txt (r"t"), 482, 10⟩]),
          (621, [⟨2, txt (r"t"), 621, 7⟩])]).map Entry.id := by
  have h1 :=
    (c4_no_double_counting [⟨1, txt (r"s"), 508, 9⟩, ⟨2, txt (r"s"), 508, 4⟩] 0 []).1
      (by decide)
  have h2 :=
    (c4_no_double_counting [] 482
      [(482, [⟨1, txt (r"t"), 482, 10⟩]), (621, [⟨2, txt (r"t"), 621, 7⟩])]).2
      (by decide)
  refine ⟨h1.1, ?_, h2.1, ?_⟩
  · exact h1.2 (txt (r"s")) [⟨1, txt (r"s"), 508, 9⟩, ⟨2, txt (r"s"), 508, 4⟩]
      ⟨2, txt (r"s"), 508, 4⟩ [⟨1, txt (r"s"), 508, 9⟩] (by decide) (by decide)
  · exact h2.2 (txt (r"t")) [(482, ⟨1, txt (r"t"), 482, 10⟩), (621, ⟨2, txt (r"t"), 621, 7⟩)]
      (482, ⟨1, txt (r"t"), 482, 10⟩) (by decide) (by decide) (by decide)

/-- Spec-side first-match grouping step: scan open groups in creation
order and join the first whose representative (first member) is similar,
otherwise open a new group at the end. -/
def fmgAdd (simB : Entry → Entry → Bool) (e : Entry) :
    List (Entry × List Entry) → List (Entry × List Entry)
  | [] => [(e, [])]
  | g :: gs => if simB e g.1 then (g.1, g.2 ++ [e]) :: gs else g :: fmgAdd simB e gs

/-- Spec-side first-match grouping loop. -/
def fmgGo (simB : Entry → Entry → Bool) (acc : List (Entry × List Entry)) :
    List Entry → List (Entry × List Entry)
  | [] => acc
  | e :: rest => fmgGo simB (fmgAdd simB e acc) rest

/-- Spec-side first-match grouping: each group as (representative, later
members). -/
def firstMatchGroups (simB : Entry → Entry → Bool) (entries : List Entry) :
    List (Entry × List Entry) :=
  fmgGo simB [] entries

/-- Fuzzy similarity of an item against a group representative, exactly
the test of `find_cross_feed_duplicates`. -/
def simFuzzy (sens : Nat) (e rep : Entry) : Bool :=
  tokenSortGe (clean_title e.title) (clean_title rep.title) sens

/-- Exact-mode similarity: equality of normalised titles. -/
def simExact (e rep : Entry) : Bool :=
  decide (normalise_title e.title = normalise_title rep.title)

/-- The seen-record of a group's representative. -/
def repRec (g : Entry × List Entry) : SeenRec :=
  (clean_title g.1.title, g.1.id, g.1.title, g.1.feedId)

/-- The loser ids of a grouping: every non-representative member. -/
def groupLosers (gs : List (Entry × List Entry)) : List Nat :=
  gs.flatMap (fun g => g.2.map Entry.id)

/-- When nothing matches, first-match adds a fresh singleton group at the
end. -/
theorem fmgAdd_no_match (simB : Entry → Entry → Bool) (e : Entry) :
    ∀ gs, (∀ g ∈ gs, ¬ simB e g.1 = true) → fmgAdd simB e gs = gs ++ [(e, [])] := by
  intro gs
  induction gs with
  | nil => intro _; rfl
  | cons g rest ih =>
    intro h
    have hg : ¬ simB e g.1 = true := h g (List.mem_cons_self _ _)
    simp only [fmgAdd, if_neg hg, List.cons_append]
    rw [ih (fun x hx => h x (List.mem_cons_of_mem _ hx))]

/-- When some representative matches, first-match keeps all
representatives and adds the item as a loser. -/
theorem fmgAdd_match (simB : Entry → Entry → Bool) (e : Entry) :
    ∀ gs g0, gs.find? (fun g => simB e g.1) = some g0 →
      (fmgAdd simB e gs).map repRec = gs.map repRec
      ∧ (groupLosers (fmgAdd simB e gs)).Perm (groupLosers gs ++ [e.id]) := by
  intro gs
  induction gs with
  | nil => intro g0 h; simp at h
  | cons g rest ih =>
    intro g0 hfind
    by_cases hsim : simB e g.1
    · constructor
      · simp only [fmgAdd, if_pos hsim, List.map_cons]
        rfl
      · simp only [fmgAdd, if_pos hsim, groupLosers, List.flatMap_cons, List.map_append]
        rw [List.append_assoc, List.append_assoc]
        exact List.Perm.append_left _ List.perm_append_comm
    · rw [List.find?_cons_of_neg _ (by simpa using hsim)] at hfind
      obtain ⟨hmap, hperm⟩ := ih g0 hfind
      constructor
      · simp only [fmgAdd, if_neg hsim, List.map_cons, hmap]
      · simp only [fmgAdd, if_neg hsim, groupLosers, List.flatMap_cons]
        rw [List.append_assoc]
        exact List.Perm.append_left _ (by simpa [groupLosers] using hperm)

/-- Simulation between the code's seen/dupes loop and spec-side
first-match grouping: the seen list is the representatives' records and
the duplicate ids are, as a multiset, the groups' losers. -/
theorem cfd_fmg_correspond (sens : Nat) :
    ∀ (l : List Entry) (dupes : List Nat) (gs : List (Entry × List Entry)),
      dupes.Perm (groupLosers gs) →
      (cfdGo sens dupes (gs.map repRec) l).2
          = (fmgGo (simFuzzy sens) gs l).map repRec
      ∧ ((cfdGo sens dupes (gs.map repRec) l).1).Perm
          (groupLosers (fmgGo (simFuzzy sens) gs l)) := by
  intro l
  induction l with
  | nil =>
    intro dupes gs hperm
    exact ⟨rfl, hperm⟩
  | cons e rest ih =>
    intro dupes gs hperm
    have hcond :
        (fun r : SeenRec => tokenSortGe (clean_title e.title) r.1 sens) ∘ repRec
          = (fun g : Entry × List Entry => simFuzzy sens e g.1) := by
      funext g
      rfl
    cases hf : (gs.map repRec).find?
        (fun r => tokenSortGe (clean_title e.title) r.1 sens) with
    | some r =>
      have hfind :
          gs.find? (fun g => simFuzzy sens e g.1) ≠ none := by
        rw [List.find?_map, hcond] at hf
        intro h
        rw [h] at hf
        simp at hf
      obtain ⟨g0, hg0⟩ := Option.ne_none_iff_exists'.mp hfind
      obtain ⟨hmap, hlos⟩ := fmgAdd_match (simFuzzy sens) e gs g0 hg0
      have hstep :
          cfdGo sens dupes (gs.map repRec) (e :: rest)
            = cfdGo sens (dupes ++ [e.id]) ((fmgAdd (simFuzzy sens) e gs).map repRec) rest := by
        simp only [cfdGo, hf, hmap]
      rw [hstep]
      have hperm2 : (dupes ++ [e.id]).Perm (groupLosers (fmgAdd (simFuzzy sens) e gs)) :=
        (List.Perm.append_right [e.id] hperm).trans hlos.symm
      simpa only [fmgGo] using ih (dupes ++ [e.id]) (fmgAdd (simFuzzy sens) e gs) hperm2
    | none =>
      have hnom : ∀ g ∈ gs, ¬ simFuzzy sens e g.1 = true := by
        rw [List.find?_map, hcond] at hf
        have := List.find?_eq_none.mp (by
          cases h2 : gs.find? (fun g => simFuzzy sens e g.1) with
          | none => rfl
          | some x => rw [h2] at hf; simp at hf)
        exact this
      have hadd := fmgAdd_no_match (simFuzzy sens) e gs hnom
      have hlos : groupLosers (fmgAdd (simFuzzy sens) e gs) = groupLosers gs := by
        rw [hadd]
        simp [groupLosers]
      have hstep :
          cfdGo sens dupes (gs.map repRec) (e :: rest)
            = cfdGo sens dupes ((fmgAdd (simFuzzy sens) e gs).map repRec) rest := by
        simp only [cfdGo, hf, hadd, List.map_append]
        rfl
      rw [hstep]
      have hperm2 : dupes.Perm (groupLosers (fmgAdd (simFuzzy sens) e gs)) := by
        rw [hlos]
        exact hperm
      simpa only [fmgGo] using ih dupes (fmgAdd (simFuzzy sens) e gs) hperm2

/-- Relation between a keyed group of the dict grouping and a first-match
group: same key (the representative's normalised title) and the same
members, the representative first. -/
def RelGroup (kg : Str × List Entry) (g : Entry × List Entry) : Prop :=
  kg.1 = normalise_title g.1.title ∧ kg.2 = g.1 :: g.2

/-- Adding one entry keeps the dict grouping and first-match grouping in
lock-step. -/
theorem groupAdd_fmgAdd (e : Entry) :
    ∀ (acc : List (Str × List Entry)) (gacc : List (Entry × List Entry)),
      List.Forall₂ RelGroup acc gacc →
      List.Forall₂ RelGroup (groupAdd (normalise_title e.title) e acc)
        (fmgAdd simExact e gacc) := by
  intro acc gacc h
  induction h with
  | nil =>
    exact List.Forall₂.cons ⟨rfl, rfl⟩ List.Forall₂.nil
  | cons hrel hrest ih =>
    rename_i kg g acc' gacc'
    obtain ⟨hk, hg⟩ := hrel
    by_cases hc : kg.1 = normalise_title e.title
    · have hsim : simExact e g.1 = true := by
        unfold simExact
        rw [hk] at hc
        simp [hc.symm]
      obtain ⟨k0, g0⟩ := kg
      simp only at hk hg hc
      simp only [groupAdd, if_pos hc, fmgAdd, hsim, if_pos]
      refine List.Forall₂.cons ⟨hk, ?_⟩ hrest
      simp only [hg, List.cons_append]
    · have hsim : simExact e g.1 = false := by
        unfold simExact
        simp only [decide_eq_false_iff_not]
        intro he
        apply hc
        rw [hk, he]
      obtain ⟨k0, g0⟩ := kg
      simp only at hk hg hc
      simp only [groupAdd, if_neg hc, fmgAdd, hsim, Bool.false_eq_true, if_false]
      exact List.Forall₂.cons ⟨hk, hg⟩ ih

/-- The grouping loop of the tech engine and first-match grouping with
exact similarity stay in lock-step over the accepted entries. -/
theorem groupGo_fmgGo :
    ∀ (l : List Entry) (acc : List (Str × List Entry))
      (gacc : List (Entry × List Entry)),
      List.Forall₂ RelGroup acc gacc →
      List.Forall₂ RelGroup
        (groupGo (fun e => normalise_title e.title)
          (fun e => decide (e.title ≠ [])) acc l)
        (fmgGo simExact gacc (l.filter (fun e => decide (e.title ≠ [])))) := by
  intro l
  induction l with
  | nil => intro acc gacc h; exact h
  | cons e rest ih =>
    intro acc gacc h
    by_cases hok : (decide (e.title ≠ []) : Bool)
    · rw [List.filter_cons, if_pos hok]
      simp only [groupGo, if_pos hok, fmgGo]
      exact ih _ _ (groupAdd_fmgAdd e acc gacc h)
    · rw [List.filter_cons, if_neg hok]
      simp only [groupGo, if_neg hok]
      exact ih _ _ h

/-- Projection of the lock-step relation to member lists. -/
theorem forall2_members :
    ∀ (gs1 : List (Str × List Entry)) (gs2 : List (Entry × List Entry)),
      List.Forall₂ RelGroup gs1 gs2 →
      gs1.map Prod.snd = gs2.map (fun g => g.1 :: g.2) := by
  intro gs1 gs2 h
  induction h with
  | nil => rfl
  | cons hrel _ ih => simp [hrel.2, ih]

/-- Singleton groups contribute no losers: the loser list ignores groups
with no member beyond the representative. -/
theorem groupLosers_filter :
    ∀ gs : List (Entry × List Entry),
      groupLosers gs
        = (gs.filter (fun g => decide (g.2 ≠ []))).flatMap
            (fun g => g.2.map Entry.id) := by
  intro gs
  induction gs with
  | nil => rfl
  | cons g rest ih =>
    by_cases h : g.2 = []
    · simp only [groupLosers, List.flatMap_cons, h, List.map_nil, List.nil_append,
        List.filter_cons]
      simpa [h, groupLosers] using ih
    · simp only [groupLosers, List.flatMap_cons, List.filter_cons]
      rw [if_pos (by simpa using h)]
      simp only [List.flatMap_cons]
      simpa [groupLosers] using congrArg (g.2.map Entry.id ++ ·) ih

/-- C6: grouping is first-match.  The fuzzy engine's seen list is exactly
the representatives (first members) of the spec's first-match grouping,
its duplicate ids are exactly (as a multiset) the non-representative
members of those groups — an item joins the first open group whose
representative key is similar, otherwise opens a new group — and groups
with no member beyond the representative contribute nothing.  The tech
engine's dict grouping produces exactly the groups of first-match
grouping under exact key similarity over the accepted entries. -/
theorem c6_first_match_grouping (sens : Nat) (entries : List Entry) :
    (find_cross_feed_duplicates sens entries).2
      = (firstMatchGroups (simFuzzy sens) entries).map repRec
    ∧ ((find_cross_feed_duplicates sens entries).1).Perm
        (groupLosers (firstMatchGroups (simFuzzy sens) entries))
    ∧ groupLosers (firstMatchGroups (simFuzzy sens) entries)
      = ((firstMatchGroups (simFuzzy sens) entries).filter
          (fun g => decide (g.2 ≠ []))).flatMap (fun g => g.2.map Entry.id)
    ∧ (techGroups entries).map Prod.snd
      = (firstMatchGroups simExact
          (entries.filter (fun e => decide (e.title ≠ [])))).map
          (fun g => g.1 :: g.2) := by
  obtain ⟨hseen, hdup⟩ :=
    cfd_fmg_correspond sens entries [] [] (List.Perm.refl _)
  refine ⟨hseen, hdup, groupLosers_filter _, ?_⟩
  exact forall2_members _ _
    (groupGo_fmgGo entries [] [] List.Forall₂.nil)

/-- C6 witness: the correspondence instantiated at a concrete batch. -/
theorem c6_witness :
    (find_cross_feed_duplicates 88 [⟨1, txt (r"cup final"), 481, 3⟩,
        ⟨2, txt (r"final cup"), 482, 7⟩]).2
      = (firstMatchGroups (simFuzzy 88) [⟨1, txt (r"cup final"), 481, 3⟩,
          ⟨2, txt (r"final cup"), 482, 7⟩]).map repRec := by
  exact (c6_first_match_grouping 88
    [⟨1, txt (r"cup final"), 481, 3⟩, ⟨2, txt (r"final cup"), 482, 7⟩]).1

/-- No two adjacent whitespace characters. -/
def noDblB : List Nat → Bool
  | [] => true
  | [_] => true
  | a :: b :: r => !(spB a && spB b) && noDblB (b :: r)

/-- The first character, if any, is not whitespace. -/
def headOkB : List Nat → Bool
  | [] => true
  | c :: _ => !spB c

/-- The last character, if any, is not whitespace. -/
def lastOkB (l : List Nat) : Bool :=
  match l.getLast? with
  | none => true
  | some c => !spB c

/-- ASCII lower-casing is idempotent. -/
theorem pyLower_idem (c : Nat) : pyLower (pyLower c) = pyLower c := by
  unfold pyLower
  by_cases h : 65 ≤ c ∧ c ≤ 90
  · rw [if_pos h, if_neg (by omega)]
  · rw [if_neg h, if_neg h]

/-- Characters of the collapsed string: spaces proper, or non-whitespace
characters of the input. -/
theorem collapse_mem :
    ∀ l, ∀ c ∈ collapseWs l, c = 32 ∨ (c ∈ l ∧ spB c = false) := by
  intro l
  induction l using collapseWs.induct with
  | case1 => intro c hc; simp [collapseWs] at hc
  | case2 c0 h =>
    intro c hc
    simp only [collapseWs, if_pos h, List.mem_singleton] at hc
    exact Or.inl hc
  | case3 c0 h =>
    intro c hc
    simp only [collapseWs, if_neg h, List.mem_singleton] at hc
    subst hc
    exact Or.inr ⟨List.mem_singleton_self _, by simpa using h⟩
  | case4 c0 d rest h1 h2 ih =>
    intro c hc
    simp only [collapseWs, if_pos h1, if_pos h2] at hc
    rcases ih c hc with h | ⟨hm, hs⟩
    · exact Or.inl h
    · exact Or.inr ⟨List.mem_cons_of_mem _ hm, hs⟩
  | case5 c0 d rest h1 h2 ih =>
    intro c hc
    simp only [collapseWs, if_pos h1, if_neg h2, List.mem_cons] at hc
    rcases hc with h | hc
    · exact Or.inl h
    · rcases ih c hc with h | ⟨hm, hs⟩
      · exact Or.inl h
      · exact Or.inr ⟨List.mem_cons_of_mem _ hm, hs⟩
  | case6 c0 d rest h1 ih =>
    intro c hc
    simp only [collapseWs, if_neg h1, List.mem_cons] at hc
    rcases hc with h | hc
    · subst h
      exact Or.inr ⟨List.mem_cons_self _ _, by simpa using h1⟩
    · rcases ih c hc with h | ⟨hm, hs⟩
      · exact Or.inl h
      · exact Or.inr ⟨List.mem_cons_of_mem _ hm, hs⟩

/-- Collapsing a string whose first character is not whitespace keeps that
character in front. -/
theorem collapse_cons_nonspace (d : Nat) (rest : List Nat) (h : spB d = false) :
    collapseWs (d :: rest) = d :: collapseWs rest := by
  cases rest with
  | nil => simp [collapseWs, h]
  | cons x xs => simp [collapseWs, h]

/-- The collapsed string has no two adjacent whitespace characters. -/
theorem collapse_noDbl : ∀ l, noDblB (collapseWs l) = true := by
  intro l
  induction l using collapseWs.induct with
  | case1 => rfl
  | case2 c h => simp [collapseWs, h, noDblB]
  | case3 c h => simp [collapseWs, h, noDblB]
  | case4 c d rest h1 h2 ih => simpa [collapseWs, h1, h2] using ih
  | case5 c d rest h1 h2 ih =>
    have hd : spB d = false := by simpa using h2
    simp only [collapseWs, if_pos h1, if_neg h2]
    rw [collapse_cons_nonspace d rest hd] at ih ⊢
    simpa [noDblB, hd] using ih
  | case6 c d rest h1 ih =>
    have hc : spB c = false := by simpa using h1
    simp only [collapseWs, if_neg h1]
    cases hX : collapseWs (d :: rest) with
    | nil => simp [noDblB]
    | cons x xs =>
      rw [hX] at ih
      simpa [noDblB, hc] using ih

/-- Collapsing is the identity on strings whose whitespace is already
single proper spaces. -/
theorem collapse_id :
    ∀ l, (∀ c ∈ l, spB c = true → c = 32) → noDblB l = true → collapseWs l = l := by
  intro l
  induction l using collapseWs.induct with
  | case1 => intro _ _; rfl
  | case2 c h =>
    intro hmem _
    simp only [collapseWs, if_pos h]
    rw [hmem c (List.mem_singleton_self c) h]
  | case3 c h =>
    intro _ _
    simp only [collapseWs, if_neg h]
  | case4 c d rest h1 h2 ih =>
    intro _ hdbl
    exfalso
    simp [noDblB, h1, h2] at hdbl
  | case5 c d rest h1 h2 ih =>
    intro hmem hdbl
    simp only [collapseWs, if_pos h1, if_neg h2]
    rw [ih (fun x hx hs => hmem x (List.mem_cons_of_mem _ hx) hs)
      (by simp only [noDblB, Bool.and_eq_true] at hdbl; exact hdbl.2)]
    rw [hmem c (List.mem_cons_self _ _) h1]
  | case6 c d rest h1 ih =>
    intro hmem hdbl
    simp only [collapseWs, if_neg h1]
    rw [ih (fun x hx hs => hmem x (List.mem_cons_of_mem _ hx) hs)
      (by simp only [noDblB, Bool.and_eq_true] at hdbl; exact hdbl.2)]

/-- The space character is whitespace. -/
theorem spB_32 : spB 32 = true := by decide

/-- Collapsing preserves the subsequence of non-whitespace characters. -/
theorem collapse_filter_nonsp :
    ∀ l, (collapseWs l).filter (fun c => !spB c) = l.filter (fun c => !spB c) := by
  intro l
  induction l using collapseWs.induct with
  | case1 => rfl
  | case2 c h => simp [collapseWs, h, List.filter, spB_32]
  | case3 c h => simp [collapseWs, h, List.filter]
  | case4 c d rest h1 h2 ih => simp [collapseWs, h1, h2, List.filter_cons, ih]
  | case5 c d rest h1 h2 ih => simp [collapseWs, h1, h2, List.filter_cons, ih, spB_32]
  | case6 c d rest h1 ih =>
    have hc : spB c = false := by simpa using h1
    simp [collapseWs, h1, List.filter_cons, hc, ih]

/-- Characters of the right-trimmed string come from the input. -/
theorem trimRight_subset : ∀ l, ∀ c ∈ trimRight l, c ∈ l := by
  intro l
  induction l with
  | nil => intro c hc; simp [trimRight] at hc
  | cons x rest ih =>
    intro c hc
    simp only [trimRight] at hc
    by_cases hr : (trimRight rest).isEmpty
    · rw [if_pos hr] at hc
      by_cases hx : spB x
      · simp [hx] at hc
      · simp only [hx, Bool.false_eq_true, if_false, List.mem_singleton] at hc
        subst hc
        exact List.mem_cons_self _ _
    · rw [if_neg hr] at hc
      rcases List.mem_cons.mp hc with heq | hmem
      · subst heq; exact List.mem_cons_self _ _
      · exact List.mem_cons_of_mem _ (ih c hmem)

/-- A nonempty right-trim of a cons keeps the head. -/
theorem trimRight_cons_shape (x : Nat) (rest : List Nat) :
    trimRight (x :: rest) = [] ∨ ∃ t, trimRight (x :: rest) = x :: t := by
  simp only [trimRight]
  by_cases hr : (trimRight rest).isEmpty
  · rw [if_pos hr]
    by_cases hx : spB x
    · simp [hx]
    · simp [hx]
  · rw [if_neg hr]
    exact Or.inr ⟨trimRight rest, rfl⟩

/-- Right-trimming drops only a whitespace suffix: the trim is empty only
when everything was whitespace. -/
theorem trimRight_nil_all_sp : ∀ l, trimRight l = [] → ∀ c ∈ l, spB c = true := by
  intro l
  induction l with
  | nil => intro _ c hc; simp at hc
  | cons x rest ih =>
    intro h c hc
    simp only [trimRight] at h
    by_cases hr : (trimRight rest).isEmpty
    · rw [if_pos hr] at h
      by_cases hx : spB x
      · rcases List.mem_cons.mp hc with heq | hmem
        · subst heq; exact hx
        · exact ih (List.isEmpty_iff.mp hr) c hmem
      · simp [hx] at h
    · rw [if_neg hr] at h
      simp at h

/-- Right-trimming preserves the subsequence of non-whitespace
characters. -/
theorem trimRight_filter_nonsp :
    ∀ l, (trimRight l).filter (fun c => !spB c) = l.filter (fun c => !spB c) := by
  intro l
  induction l with
  | nil => rfl
  | cons x rest ih =>
    simp only [trimRight]
    by_cases hr : (trimRight rest).isEmpty
    · rw [if_pos hr]
      have hall := trimRight_nil_all_sp rest (List.isEmpty_iff.mp hr)
      have hrf : rest.filter (fun c => !spB c) = [] := by
        apply List.filter_eq_nil_iff.mpr
        intro a ha
        simp [hall a ha]
      by_cases hx : spB x
      · simp [hx, List.filter_cons, hrf]
      · simp only [hx, Bool.false_eq_true, if_false]
        simp [List.filter_cons, hx, hrf, ← ih, List.isEmpty_iff.mp hr, trimRight]
    · rw [if_neg hr]
      simp [List.filter_cons, ih]

/-- Right-trimming ends, when nonempty, in a non-whitespace character. -/
theorem trimRight_lastOk : ∀ l, lastOkB (trimRight l) = true := by
  intro l
  induction l with
  | nil => rfl
  | cons x rest ih =>
    simp only [trimRight]
    by_cases hr : (trimRight rest).isEmpty
    · rw [if_pos hr]
      by_cases hx : spB x
      · simp [hx, lastOkB]
      · simp [hx, lastOkB, hx]
    · rw [if_neg hr]
      obtain ⟨y, ys, hs⟩ : ∃ y ys, trimRight rest = y :: ys := by
        cases hc : trimRight rest with
        | nil => rw [hc] at hr; simp at hr
        | cons y ys => exact ⟨y, ys, rfl⟩
      rw [hs]
      unfold lastOkB
      rw [List.getLast?_cons_cons]
      rw [hs] at ih
      unfold lastOkB at ih
      exact ih

/-- Right-trimming is the identity when the last character is not
whitespace. -/
theorem trimRight_id : ∀ l, lastOkB l = true → trimRight l = l := by
  intro l
  induction l with
  | nil => intro _; rfl
  | cons x rest ih =>
    intro h
    cases rest with
    | nil =>
      unfold lastOkB at h
      simp only [List.getLast?_singleton] at h
      simp only [trimRight, List.isEmpty_nil, if_pos]
      simp only [Bool.not_eq_true'] at h
      simp [h]
    | cons y ys =>
      have hrest : trimRight (y :: ys) = y :: ys := by
        apply ih
        unfold lastOkB at h ⊢
        rwa [List.getLast?_cons_cons] at h
      have hcons : trimRight (x :: y :: ys)
          = if (trimRight (y :: ys)).isEmpty then (if spB x then [] else [x])
            else x :: trimRight (y :: ys) := rfl
      rw [hcons, hrest]
      simp

/-- Right-trimming preserves absence of adjacent whitespace pairs. -/
theorem trimRight_noDbl : ∀ l, noDblB l = true → noDblB (trimRight l) = true := by
  intro l
  induction l with
  | nil => intro _; rfl
  | cons x rest ih =>
    intro h
    have hrest : noDblB rest = true := by
      cases rest with
      | nil => rfl
      | cons y ys => simp only [noDblB, Bool.and_eq_true] at h; exact h.2
    simp only [trimRight]
    by_cases hr : (trimRight rest).isEmpty
    · rw [if_pos hr]
      by_cases hx : spB x <;> simp [hx, noDblB]
    · rw [if_neg hr]
      have ihr := ih hrest
      cases hs : trimRight rest with
      | nil => rw [hs] at hr; simp at hr
      | cons y ys =>
        rw [hs] at ihr
        obtain ⟨a, b, hab⟩ : ∃ a b, rest = a :: b := by
          cases rest with
          | nil => simp [trimRight] at hs
          | cons a b => exact ⟨a, b, rfl⟩
        have hay : a = y := by
          rcases trimRight_cons_shape a b with hnil | ⟨t, ht⟩
          · rw [← hab, hs] at hnil; simp at hnil
          · rw [← hab, hs] at ht
            exact (List.cons.injEq .. ▸ ht).1.symm
        simp only [noDblB, Bool.and_eq_true]
        constructor
        · rw [hab, hay] at h
          simp only [noDblB, Bool.and_eq_true] at h
          exact h.1
        · exact ihr

/-- Dropping a whitespace prefix leaves a string whose head is not
whitespace. -/
theorem headOk_dropWhile : ∀ l : List Nat, headOkB (l.dropWhile spB) = true := by
  intro l
  induction l with
  | nil => rfl
  | cons c rest ih =>
    by_cases hc : spB c
    · rw [List.dropWhile_cons_of_pos hc]
      exact ih
    · rw [List.dropWhile_cons_of_neg hc]
      simpa [headOkB] using hc

/-- Dropping a whitespace prefix preserves the non-whitespace
subsequence. -/
theorem dropWhile_filter_nonsp :
    ∀ l : List Nat, (l.dropWhile spB).filter (fun c => !spB c)
      = l.filter (fun c => !spB c) := by
  intro l
  induction l with
  | nil => rfl
  | cons c rest ih =>
    by_cases hc : spB c
    · rw [List.dropWhile_cons_of_pos hc, List.filter_cons, ih]
      simp [hc]
    · rw [List.dropWhile_cons_of_neg hc]

/-- Dropping a whitespace prefix preserves absence of adjacent whitespace
pairs. -/
theorem dropWhile_noDbl :
    ∀ l : List Nat, noDblB l = true → noDblB (l.dropWhile spB) = true := by
  intro l
  induction l with
  | nil => intro _; rfl
  | cons c rest ih =>
    intro h
    have hrest : noDblB rest = true := by
      cases rest with
      | nil => rfl
      | cons y ys => simp only [noDblB, Bool.and_eq_true] at h; exact h.2
    by_cases hc : spB c
    · rw [List.dropWhile_cons_of_pos hc]
      exact ih hrest
    · rw [List.dropWhile_cons_of_neg hc]
      exact h

/-- Right-trimming preserves a non-whitespace head. -/
theorem trimRight_headOk :
    ∀ l : List Nat, headOkB l = true → headOkB (trimRight l) = true := by
  intro l
  induction l with
  | nil => intro _; rfl
  | cons x rest _ =>
    intro h
    rcases trimRight_cons_shape x rest with hnil | ⟨t, ht⟩
    · rw [hnil]; rfl
    · rw [ht]
      simpa [headOkB] using h

/-- Normalisation is the identity on canonical strings: every character
kept, already lower-case, whitespace only as single interior proper
spaces. -/
theorem normalise_id_of_canonical (l : Str)
    (hmem : ∀ c ∈ l, keepChar c = true ∧ pyLower c = c ∧ (spB c = true → c = 32))
    (hdbl : noDblB l = true) (hhead : headOkB l = true) (hlast : lastOkB l = true) :
    normalise_title l = l := by
  unfold normalise_title
  have hmap : l.map pyLower = l := by
    rw [List.map_congr_left (fun c hc => (hmem c hc).2.1)]
    exact List.map_id' l
  rw [hmap]
  have hfil : l.filter keepChar = l := by
    apply List.filter_eq_self.mpr
    intro c hc
    exact (hmem c hc).1
  rw [hfil]
  rw [collapse_id l (fun c hc hs => (hmem c hc).2.2 hs) hdbl]
  unfold trimWs
  have hdrop : l.dropWhile spB = l := by
    cases l with
    | nil => rfl
    | cons c rest =>
      apply List.dropWhile_cons_of_neg
      simpa [headOkB] using hhead
  rw [hdrop]
  exact trimRight_id l hlast

/-- Being both non-whitespace and kept is exactly being a word
character. -/
theorem nonsp_keep_eq_word : ∀ c, (!spB c && keepChar c) = isWordChar c := by
  intro c
  unfold keepChar
  by_cases hs : spB c
  · have hw : isWordChar c = false := by
      unfold isWordChar
      unfold spB at hs
      simp only [decide_eq_true_eq] at hs
      simp only [decide_eq_false_iff_not]
      omega
    simp [hs, hw]
  · have hs' : spB c = false := by simpa using hs
    simp [hs']

/-- C8 (amended): shape of the normaliser's output and idempotence.  The
non-whitespace characters of `normalise_title t` are exactly the word
characters (letters, digits, or UNDERSCORE — Python's `\w` keeps the
underscore, which the original claim omitted) of the lower-cased title,
in order; every output character is kept and lower-case, whitespace
occurs only as single interior proper spaces; and normalisation is
idempotent. -/
theorem c8_normalise_shape_idempotent (t : Str) :
    (normalise_title t).filter (fun c => !spB c)
      = (t.map pyLower).filter isWordChar
    ∧ (∀ c ∈ normalise_title t,
        keepChar c = true ∧ pyLower c = c ∧ (spB c = true → c = 32))
    ∧ noDblB (normalise_title t) = true
    ∧ headOkB (normalise_title t) = true
    ∧ lastOkB (normalise_title t) = true
    ∧ normalise_title (normalise_title t) = normalise_title t := by
  have hmem : ∀ c ∈ normalise_title t,
      keepChar c = true ∧ pyLower c = c ∧ (spB c = true → c = 32) := by
    intro c hc
    unfold normalise_title trimWs at hc
    have hc2 := trimRight_subset _ c hc
    have hc3 := (List.dropWhile_sublist (p := spB)
      (l := collapseWs ((t.map pyLower).filter keepChar))).subset hc2
    rcases collapse_mem _ c hc3 with h32 | ⟨hmemf, hns⟩
    · subst h32
      exact ⟨by decide, by decide, fun _ => rfl⟩
    · have hkeep := (List.mem_filter.mp hmemf).2
      have hmap := (List.mem_filter.mp hmemf).1
      obtain ⟨c0, _, hc0⟩ := List.mem_map.mp hmap
      refine ⟨hkeep, ?_, ?_⟩
      · rw [← hc0]
        exact pyLower_idem c0
      · intro hs
        rw [hs] at hns
        simp at hns
  have hdbl : noDblB (normalise_title t) = true := by
    unfold normalise_title trimWs
    exact trimRight_noDbl _ (dropWhile_noDbl _ (collapse_noDbl _))
  have hhead : headOkB (normalise_title t) = true := by
    unfold normalise_title trimWs
    exact trimRight_headOk _ (headOk_dropWhile _)
  have hlast : lastOkB (normalise_title t) = true := by
    unfold normalise_title trimWs
    exact trimRight_lastOk _
  refine ⟨?_, hmem, hdbl, hhead, hlast,
    normalise_id_of_canonical _ hmem hdbl hhead hlast⟩
  unfold normalise_title trimWs
  rw [trimRight_filter_nonsp, dropWhile_filter_nonsp, collapse_filter_nonsp,
    List.filter_filter]
  exact List.filter_congr (fun c _ => nonsp_keep_eq_word c)

/-- The C8 claim's normaliser, following the claim's words: every
character that is not a letter, digit, or whitespace is removed (the
underscore is NOT kept), then whitespace runs are collapsed and the ends
trimmed. -/
def claimKeepChar (c : Nat) : Bool :=
  decide ((48 ≤ c ∧ c ≤ 57) ∨ (65 ≤ c ∧ c ≤ 90) ∨ (97 ≤ c ∧ c ≤ 122)) || spB c

/-- The normaliser the C8 claim describes (no underscore kept). -/
def claimNormalize (t : Str) : Str :=
  trimWs (collapseWs ((t.map pyLower).filter claimKeepChar))

/-- C8 counterexample: on the title `a_b` the code keeps the underscore
(Python's `\w` includes it), while the claim's description removes every
character that is not a letter, digit, or whitespace, yielding `ab`. -/
theorem c8_counterexample :
    normalise_title (txt (r"a_b")) = txt (r"a_b")
    ∧ claimNormalize (txt (r"a_b")) = txt (r"ab")
    ∧ normalise_title (txt (r"a_b")) ≠ claimNormalize (txt (r"a_b")) := by decide

/-- C8 witness: idempotence and output shape at a concrete title. -/
theorem c8_witness :
    normalise_title (normalise_title (txt (r" A_b  c!")))
      = normalise_title (txt (r" A_b  c!"))
    ∧ normalise_title (txt (r" A_b  c!")) = txt (r"a_b c") := by
  refine ⟨(c8_normalise_shape_idempotent (txt (r" A_b  c!"))).2.2.2.2.2, by decide⟩

/-- ASCII lower-casing maps kept characters to kept characters. -/
theorem keep_pyLower (c : Nat) (h : keepChar c = true) : keepChar (pyLower c) = true := by
  unfold keepChar isWordChar spB at h ⊢
  unfold pyLower
  by_cases hc : 65 ≤ c ∧ c ≤ 90
  · rw [if_pos hc]
    simp only [Bool.or_eq_true, decide_eq_true_eq] at h ⊢
    omega
  · rwa [if_neg hc]

/-- C10 counterexample: the sport variant has no punctuation-stripping
pass, so on `a!` it keeps the exclamation mark while the tech variant
removes it — the two normalisers disagree, and the two exact-mode
engines judge different pairs of titles equal. -/
theorem c10_counterexample :
    normalise_title_sport (txt (r"a!")) = txt (r"a!")
    ∧ normalise_title (txt (r"a!")) = txt (r"a")
    ∧ normalise_title_sport (txt (r"a!")) ≠ normalise_title (txt (r"a!")) := by decide

/-- C10 (amended): the two variants agree exactly on titles containing
only word characters and whitespace; in general the sport variant
preserves punctuation that the tech variant strips. -/
theorem c10_variants_agree_on_clean_titles (t : Str)
    (h : ∀ c ∈ t, keepChar c = true) :
    normalise_title_sport t = normalise_title t := by
  unfold normalise_title normalise_title_sport
  have hfil : (t.map pyLower).filter keepChar = t.map pyLower := by
    apply List.filter_eq_self.mpr
    intro c hc
    obtain ⟨c0, hc0m, hc0⟩ := List.mem_map.mp hc
    rw [← hc0]
    exact keep_pyLower c0 (h c0 hc0m)
  rw [hfil]

/-- C10 witness: agreement at a concrete punctuation-free title. -/
theorem c10_witness :
    normalise_title_sport (txt (r"Ab  c")) = normalise_title (txt (r"Ab  c")) :=
  c10_variants_agree_on_clean_titles (txt (r"Ab  c")) (by decide)
